import Mathlib

/-!
# geo-golf: `simplify_linestring` (src/native/linesimplify/linesimplify.cpp)

A shallow embedding of the C function `simplify_linestring` and the properties of
its specification that can be settled on it.

* `double` values are IEEE-754 binary64 bit patterns; the only operation the
  function applies to them is the comparison `!=`, modelled by `Double.ne`
  (a NaN differs from itself, `+0.0` and `-0.0` do not differ).
* `int` values are mathematical integers; every arithmetic step is checked against
  the 32-bit range and leaving it is the fault `Fault.overflow` (signed overflow is
  undefined behaviour in C).
* A buffer is a list of doubles, a null pointer is `none`; every access is checked
  against the buffer and an access outside it is the fault `Fault.outOfBounds`.
  The four buffers of a call are taken to be disjoint.
* The loop is bounded by a fuel argument, `n` iterations for the bound `n`; the
  theorem `returns_computes` shows that this is always enough.
-/

namespace LineSimplify

/-! ## IEEE-754 binary64 values -/

/-- An IEEE-754 binary64 value (`double`), given by its 64-bit pattern. -/
structure Double where
  bits : Nat
  isLt : bits < 2 ^ 64
deriving DecidableEq

/-- The 11-bit biased exponent field. -/
def Double.biasedExp (x : Double) : Nat := x.bits / 2 ^ 52 % 2 ^ 11

/-- The 52-bit fraction field. -/
def Double.fraction (x : Double) : Nat := x.bits % 2 ^ 52

/-- The sign bit. -/
def Double.signBit (x : Double) : Bool := decide (2 ^ 63 ≤ x.bits)

/-- The 63 bits below the sign: exponent and fraction. -/
def Double.magnitude (x : Double) : Nat := x.bits % 2 ^ 63

/-- Not-a-number: exponent all ones, fraction non-zero. -/
def Double.isNaN (x : Double) : Bool := x.biasedExp == 2047 && x.fraction != 0

/-- Finite (`std::isfinite`): neither an infinity nor a NaN. -/
def Double.isFinite (x : Double) : Bool := x.biasedExp != 2047

/-- Sign-magnitude order key of a value that is not a NaN: it is monotone in the
value denoted, and `+0.0` and `-0.0` share the key `0`. -/
def Double.key (x : Double) : Int :=
  if x.signBit then -(x.magnitude : Int) else (x.magnitude : Int)

/-- The C comparison `x == y` on doubles: false when either side is a NaN, true
of `+0.0` and `-0.0`, and otherwise equality of the values. -/
def Double.eq (x y : Double) : Bool := !x.isNaN && !y.isNaN && x.key == y.key

/-- The C comparison `x != y` on doubles, the negation of `==`. -/
def Double.ne (x y : Double) : Bool := !(x.eq y)

/-- The C comparison `x < y` on doubles. -/
def Double.lt (x y : Double) : Bool := !x.isNaN && !y.isNaN && decide (x.key < y.key)

/-- The C comparison `x <= y` on doubles. -/
def Double.le (x y : Double) : Bool := !x.isNaN && !y.isNaN && decide (x.key ≤ y.key)

/-- The double with the given bit pattern (reduced to 64 bits). -/
def Double.ofBits (b : Nat) : Double := ⟨b % 2 ^ 64, Nat.mod_lt _ (by decide)⟩

/-- The value `+0.0`. -/
def Double.zero : Double := Double.ofBits 0

/-- The value `-0.0`. -/
def Double.negZero : Double := Double.ofBits 0x8000000000000000

/-- The value `1.0`. -/
def Double.one : Double := Double.ofBits 0x3FF0000000000000

/-- The value `2.0`. -/
def Double.two : Double := Double.ofBits 0x4000000000000000

/-- The value `3.0`. -/
def Double.three : Double := Double.ofBits 0x4008000000000000

/-- The value `4.0`. -/
def Double.four : Double := Double.ofBits 0x4010000000000000

/-- The value `5.0`. -/
def Double.five : Double := Double.ofBits 0x4014000000000000

/-- A quiet NaN. -/
def Double.nan : Double := Double.ofBits 0x7FF8000000000000

/-! ## Machine integers and buffers -/

/-- What an execution can run into instead of returning. -/
inductive Fault where
  | outOfBounds
  | overflow
  | fuel
deriving DecidableEq, Repr

/-- Largest value of a 32-bit `int`. -/
def INT_MAX : Int := 2147483647

/-- Smallest value of a 32-bit `int`. -/
def INT_MIN : Int := -2147483648

/-- The result of an `int` operation: the exact value when it is representable,
otherwise the fault `overflow`. -/
def checked (v : Int) : Except Fault Int :=
  if INT_MIN ≤ v ∧ v ≤ INT_MAX then .ok v else .error .overflow

/-- The read `buf[i]`. -/
def load (buf : List Double) (i : Int) : Except Fault Double :=
  if 0 ≤ i then
    match buf[i.toNat]? with
    | some v => .ok v
    | none => .error .outOfBounds
  else .error .outOfBounds

/-- The write `buf[i] = v`. -/
def store (buf : List Double) (i : Int) (v : Double) : Except Fault (List Double) :=
  if 0 ≤ i ∧ i < buf.length then .ok (buf.set i.toNat v) else .error .outOfBounds

/-! ## The function -/

/-- What a call leaves behind: the returned count and the two output buffers. -/
structure Result where
  count : Int
  outLon : Option (List Double)
  outLat : Option (List Double)
deriving DecidableEq

/-- The loop
`for (int i = 0; i < n; i += 2) { outLon[out] = lon[i]; outLat[out] = lat[i]; out++; }`
from the state `(i, out, outLon, outLat)`; the first argument bounds the number of
iterations. -/
def copyLoop (lon lat : List Double) (n : Int) :
    Nat → Int → Int → List Double → List Double →
      Except Fault (Int × List Double × List Double)
  | 0, i, out, outLon, outLat =>
    if i < n then .error .fuel else .ok (out, outLon, outLat)
  | fuel + 1, i, out, outLon, outLat =>
    if i < n then do
      let x ← load lon i
      let outLon ← store outLon out x
      let y ← load lat i
      let outLat ← store outLat out y
      let out ← checked (out + 1)
      let i ← checked (i + 2)
      copyLoop lon lat n fuel i out outLon outLat
    else .ok (out, outLon, outLat)

/-- The condition `outLon[out-1] != lon[n-1] || outLat[out-1] != lat[n-1]`, with the
short circuit of `||`. -/
def lastDiffers (lon lat : List Double) (n out : Int) (outLon outLat : List Double) :
    Except Fault Bool := do
  let o ← checked (out - 1)
  let m ← checked (n - 1)
  let a ← load outLon o
  let b ← load lon m
  if a.ne b then .ok true
  else do
    let c ← load outLat o
    let d ← load lat m
    .ok (c.ne d)

/-- The function `simplify_linestring(lon, lat, n, epsilonMeters, outLon, outLat)`.
A null pointer is `none`. The result holds the returned count and the output
buffers after the call. -/
def simplify_linestring (lon lat : Option (List Double)) (n : Int) (_epsilonMeters : Double)
    (outLon outLat : Option (List Double)) : Except Fault Result :=
  match lon, lat, outLon, outLat with
  | some lon, some lat, some outLon, some outLat =>
    if n ≤ 0 then .ok ⟨0, some outLon, some outLat⟩
    else if n = 1 then do
      let x ← load lon 0
      let outLon ← store outLon 0 x
      let y ← load lat 0
      let outLat ← store outLat 0 y
      .ok ⟨1, some outLon, some outLat⟩
    else do
      let (out, outLon, outLat) ← copyLoop lon lat n n.toNat 0 0 outLon outLat
      if (← lastDiffers lon lat n out outLon outLat) then do
        let m ← checked (n - 1)
        let x ← load lon m
        let outLon ← store outLon out x
        let y ← load lat m
        let outLat ← store outLat out y
        let out ← checked (out + 1)
        .ok ⟨out, some outLon, some outLat⟩
      else .ok ⟨out, some outLon, some outLat⟩
  | _, _, _, _ => .ok ⟨0, outLon, outLat⟩

/-- A point: longitude and latitude. -/
abbrev Point := Double × Double

/-- The output of a call: the first `count` pairs of the output buffers. -/
def Result.output (r : Result) : List Point :=
  ((r.outLon.getD []).take r.count.toNat).zip ((r.outLat.getD []).take r.count.toNat)

/-- The input polyline of a call: the first `n` pairs of the input buffers. -/
def inputPoints (lon lat : List Double) (n : Int) : List Point :=
  (lon.take n.toNat).zip (lat.take n.toNat)

/-- The comparison `p.lon != q.lon || p.lat != q.lat` of two points, as line 35 of
the source writes it. -/
def Point.ne (p q : Point) : Bool := p.1.ne q.1 || p.2.ne q.2

/-- Equality `==` of two points: of the longitudes and of the latitudes. -/
def Point.eq (p q : Point) : Bool := p.1.eq q.1 && p.2.eq q.2

/-- Both coordinates of the point are finite. -/
def Point.isFinite (p : Point) : Bool := p.1.isFinite && p.2.isFinite

/-! ## The function on polylines

The doc comment of the source says what the function keeps: every second point and
the last one. `keepEverySecond` is that description as a function on lists of
points; `simplify_linestring_eq` below shows the code computes it. -/

/-- The entries at the even positions 0, 2, 4, ... of a list. -/
def everySecond {α : Type} : List α → List α
  | [] => []
  | [a] => [a]
  | a :: _ :: rest => a :: everySecond rest

/-- Whether the last point of the polyline differs from the last of its entries at
even positions. -/
def lastPointDiffers (P : List Point) : Bool :=
  match (everySecond P).getLast?, P.getLast? with
  | some e, some l => Point.ne e l
  | _, _ => false

/-- Every second point of the polyline, then its last point when that differs from
the last point kept so far; a polyline of at most one point is kept as it is. -/
def keepEverySecond (P : List Point) : List Point :=
  if P.length ≤ 1 then P
  else everySecond P ++ (if lastPointDiffers P then P.getLast?.toList else [])

/-- The input indices of the points `keepEverySecond` keeps, in output order. -/
def keptIndices (P : List Point) : List Nat :=
  if P.length ≤ 1 then List.range P.length
  else (List.range ((P.length + 1) / 2)).map (2 * ·) ++
    (if lastPointDiffers P then [P.length - 1] else [])

/-- The pair of the entries at index `j` of two buffers. -/
def pointAt (lon lat : List Double) (j : Nat) : Option Point :=
  match lon[j]?, lat[j]? with
  | some x, some y => some (x, y)
  | _, _ => none

/-- The four buffers hold at least `n` entries each: the input arrays have the
declared length and the caller allocated output arrays of size at least `n`. -/
def ValidBuffers (lon lat : List Double) (n : Int) (outLon outLat : List Double) : Prop :=
  n ≤ lon.length ∧ n ≤ lat.length ∧ n ≤ outLon.length ∧ n ≤ outLat.length

instance (lon lat : List Double) (n : Int) (outLon outLat : List Double) :
    Decidable (ValidBuffers lon lat n outLon outLat) :=
  inferInstanceAs (Decidable (n ≤ lon.length ∧ n ≤ lat.length ∧ n ≤ outLon.length ∧
    n ≤ outLat.length))

/-- Every coordinate of the input polyline is finite. -/
def FiniteCoords (lon lat : List Double) (n : Int) : Prop :=
  ∀ p ∈ inputPoints lon lat n, Point.isFinite p = true

instance (lon lat : List Double) (n : Int) : Decidable (FiniteCoords lon lat n) :=
  inferInstanceAs (Decidable (∀ p ∈ inputPoints lon lat n, Point.isFinite p = true))

/-- The buffer `res` is `dst` with the `c` entries from index `b` on replaced by
the entries `a, a+2, a+4, ...` of `src`. -/
def Filled (src dst res : List Double) (a b c : Nat) : Prop :=
  res.length = dst.length ∧
  (∀ j, j < b ∨ b + c ≤ j → res[j]? = dst[j]?) ∧
  (∀ j, j < c → res[b + j]? = src[a + 2 * j]?)

/-- What a returned result `r` of a call on non-null buffers is, in terms of the
input polyline and the output buffers before the call. -/
structure Computes (lon lat : List Double) (n : Int) (outLon outLat : List Double)
    (r : Result) : Prop where
  count_eq : r.count = ((keepEverySecond (inputPoints lon lat n)).length : Nat)
  output_eq : r.output = keepEverySecond (inputPoints lon lat n)
  buffers : ∃ oLon oLat, r.outLon = some oLon ∧ r.outLat = some oLat ∧
    oLon.length = outLon.length ∧ oLat.length = outLat.length ∧
    ∀ j, (keepEverySecond (inputPoints lon lat n)).length ≤ j →
      oLon[j]? = outLon[j]? ∧ oLat[j]? = outLat[j]?

/-- The call returns: it runs to its `return` without a fault. -/
def Returns (x : Except Fault Result) : Prop := ∃ r, x = .ok r

/-- The output of `r` is the input polyline read at strictly increasing indices
below `n`, as many as the returned count. -/
def SubsequenceOfInput (lon lat : List Double) (n : Int) (r : Result) : Prop :=
  ∃ idx : List Nat, (idx.length : Int) = r.count ∧ idx.Pairwise (· < ·) ∧
    (∀ i ∈ idx, (i : Int) < n) ∧
    idx.map (fun i => (inputPoints lon lat n)[i]?) = r.output.map some

/-- The first output point equals (`==`) the first input point and the last output
point, at index `count - 1`, equals the last input point, at index `n - 1`. -/
def EndpointsKept (lon lat : List Double) (n : Int) (r : Result) : Prop :=
  ∃ p q s t, r.output[0]? = some p ∧ (inputPoints lon lat n)[0]? = some q ∧
    Point.eq p q = true ∧
    r.output[(r.count - 1).toNat]? = some s ∧
    (inputPoints lon lat n)[(n - 1).toNat]? = some t ∧ Point.eq s t = true

/-- Sample longitudes: 0, 1, 2, 3, 4. -/
def sampleLon : List Double :=
  [Double.zero, Double.one, Double.two, Double.three, Double.four]

/-- Sample latitudes: 0, 1, 0, 1, 0. -/
def sampleLat : List Double :=
  [Double.zero, Double.one, Double.zero, Double.one, Double.zero]

/-- An output buffer of five entries, each 5.0 before the call. -/
def sampleOut : List Double := List.replicate 5 Double.five

/-- The dropped points of `P` lie within `tol` of the output segments that span
them, for the distance test `within p a b tol` (the point `p` is within `tol`
metres of the segment from `a` to `b`): `out` is `P` read at increasing indices, and
every input point strictly between two neighbouring kept indices passes the test
against the segment joining the two kept points. -/
def DroppedWithin (within : Point → Point → Point → Double → Prop) (P out : List Point)
    (tol : Double) : Prop :=
  ∃ idx : List Nat, idx.Pairwise (· < ·) ∧ idx.map (fun i => P[i]?) = out.map some ∧
    ∀ (j ia ib i : Nat) (a b p : Point), idx[j]? = some ia → idx[j + 1]? = some ib →
      ia < i → i < ib → P[ia]? = some a → P[ib]? = some b → P[i]? = some p →
      within p a b tol

/-- The distance bound of the specification for the distance test `within`: on every
valid input with a tolerance `>= 0`, every result the call returns has its dropped
points within the tolerance of the output segments that span them. -/
def DistanceBound (within : Point → Point → Point → Double → Prop) : Prop :=
  ∀ (lon lat outLon outLat : List Double) (n : Int) (eps : Double) (r : Result),
    0 ≤ n → ValidBuffers lon lat n outLon outLat → FiniteCoords lon lat n →
    Double.le Double.zero eps = true →
    simplify_linestring (some lon) (some lat) n eps (some outLon) (some outLat) = .ok r →
    DroppedWithin within (inputPoints lon lat n) r.output eps

/-- Three longitudes 0, 1, 2. -/
def bumpLon : List Double := [Double.zero, Double.one, Double.two]

/-- Three latitudes 0, 1, 0: with `bumpLon`, a point one degree north of the middle
of a segment along the equator. -/
def bumpLat : List Double := [Double.zero, Double.one, Double.zero]

/-- An output buffer of three entries, each 5.0 before the call. -/
def bumpOut : List Double := List.replicate 3 Double.five

/-- What the code drops, whatever the tolerance: there is one increasing list of
kept indices, the same for every tolerance, at which every returned output reads the
input; an input index is missing from it exactly when it is odd and is not a last
index whose point differs from the point before it. -/
def DropsOddIndices (lon lat : List Double) (n : Int) (outLon outLat : List Double) : Prop :=
  ∃ idx : List Nat, idx.Pairwise (· < ·) ∧
    (∀ i : Nat, (i : Int) < n →
      (i ∉ idx ↔ i % 2 = 1 ∧
        ¬ ((i : Int) = n - 1 ∧ ∃ a b, (inputPoints lon lat n)[i - 1]? = some a ∧
            (inputPoints lon lat n)[i]? = some b ∧ Point.ne a b = true))) ∧
    ∀ eps : Double,
      (n < 2147483647 →
        Returns (simplify_linestring (some lon) (some lat) n eps (some outLon) (some outLat))) ∧
      ∀ r, simplify_linestring (some lon) (some lat) n eps (some outLon) (some outLat) = .ok r →
        idx.map (fun i => (inputPoints lon lat n)[i]?) = r.output.map some

/-- Two equal points (5, 5), (5, 5): the longitudes and the latitudes alike. -/
def twinCoords : List Double := [Double.five, Double.five]

/-- An output buffer of two entries, each 0.0 before the call. -/
def twinOut : List Double := List.replicate 2 Double.zero

/-- Two longitudes `+0.0` and `-0.0`, which `==` takes for equal. -/
def signedZeroLon : List Double := [Double.zero, Double.negZero]

/-- Two latitudes 1, 1. -/
def signedZeroLat : List Double := [Double.one, Double.one]

/-- On two points: the call returns; when the points differ it returns 2 and the
output is the input, when they are equal it returns 1 and the output is the first
point alone. -/
def TwoPointResult (lon lat outLon outLat : List Double) (eps : Double) : Prop :=
  ∃ r p q, simplify_linestring (some lon) (some lat) 2 eps (some outLon) (some outLat) = .ok r ∧
    inputPoints lon lat 2 = [p, q] ∧
    (Point.ne p q = true → r.count = 2 ∧ r.output = [p, q]) ∧
    (Point.ne p q = false → r.count = 1 ∧ r.output = [p])

/-- When the returned count is 1: for a single point, or for two points that are
equal; from three points on the count is at least 2. -/
def CountOneIff (lon lat : List Double) (n : Int) (r : Result) : Prop :=
  (r.count = 1 ↔
    n = 1 ∨ (n = 2 ∧ ∃ p q, inputPoints lon lat n = [p, q] ∧ Point.ne p q = false)) ∧
  (3 ≤ n → 2 ≤ r.count)

/-- On one point: the call returns 1 and the output is that point. -/
def OnePointResult (lon lat outLon outLat : List Double) (eps : Double) : Prop :=
  ∃ r x y, lon[0]? = some x ∧ lat[0]? = some y ∧
    simplify_linestring (some lon) (some lat) 1 eps (some outLon) (some outLat) = .ok r ∧
    r.count = 1 ∧ r.output = [(x, y)] ∧ r.output = inputPoints lon lat 1

/-- A buffer of `INT_MAX` = 2147483647 entries, each `0.0`. -/
def hugeBuffer : List Double := List.replicate 2147483647 Double.zero

/-- A single longitude 3. -/
def soloLon : List Double := [Double.three]

/-- A single latitude 4. -/
def soloLat : List Double := [Double.four]

/-- An output buffer of one entry, a NaN before the call. -/
def soloOut : List Double := [Double.nan]

/-- The second call of the idempotence property: `simplify_linestring` applied to
the output of a first call `r`, that is to its output buffers with the count it
returned as the length, writing into the buffers `outLon`, `outLat`. -/
def simplifyAgain (r : Result) (eps : Double) (outLon outLat : List Double) :
    Except Fault Result :=
  simplify_linestring r.outLon r.outLat r.count eps (some outLon) (some outLat)

/-- When the second call reproduces the output of the first, `r`: it returns, and
its output is that of `r` if and only if `r` holds at most one point, or two points
that differ. -/
def IdempotentIff (r : Result) (eps : Double) (outLon outLat : List Double) : Prop :=
  ∃ r2, simplifyAgain r eps outLon outLat = .ok r2 ∧
    (r2.output = r.output ↔
      r.count ≤ 1 ∨ (r.count = 2 ∧ ∃ a b, r.output = [a, b] ∧ Point.ne a b = true))

/-- Monotonicity in the tolerance, for one input: whenever the call with `eps1`
returns, the call with `eps2` returns too, and a count that is not larger. -/
def CountMonotone (lon lat : Option (List Double)) (n : Int) (eps1 eps2 : Double)
    (outLon outLat : Option (List Double)) : Prop :=
  ∀ r1, simplify_linestring lon lat n eps1 outLon outLat = .ok r1 →
    ∃ r2, simplify_linestring lon lat n eps2 outLon outLat = .ok r2 ∧ r2.count ≤ r1.count

/-- The value `-1.0`. -/
def Double.negOne : Double := Double.ofBits 0xBFF0000000000000

/-- The value `0.0001`, as the nearest double. -/
def Double.tenThousandth : Double := Double.ofBits 0x3F1A36E2EB1C432D

/-- Three latitudes 0, 0.0001, 0: with `bumpLon`, the polyline (0,0), (1,0.0001),
(2,0) of the scenarios of the specification. -/
def wiggleLat : List Double := [Double.zero, Double.tenThousandth, Double.zero]

/-- A negative tolerance changes nothing: the call returns what it returns for the
tolerance 0, a count of at least 1, and its first output point is the first input
point, written into the output buffers. -/
def NegativeToleranceIgnored (lon lat : List Double) (n : Int) (eps : Double)
    (outLon outLat : List Double) : Prop :=
  (n < 2147483647 →
    Returns (simplify_linestring (some lon) (some lat) n eps (some outLon) (some outLat))) ∧
  ∀ r, simplify_linestring (some lon) (some lat) n eps (some outLon) (some outLat) = .ok r →
    simplify_linestring (some lon) (some lat) n Double.zero (some outLon) (some outLat) = .ok r ∧
    1 ≤ r.count ∧ ∃ p, (inputPoints lon lat n)[0]? = some p ∧ r.output[0]? = some p

/-- On the polyline (0,0), (1,0.0001), (2,0): the call returns 2 and the output is
(0,0), (2,0). -/
def MiddleDropped (eps : Double) (outLon outLat : List Double) : Prop :=
  ∃ r, simplify_linestring (some bumpLon) (some wiggleLat) 3 eps (some outLon) (some outLat)
      = .ok r ∧
    r.count = 2 ∧
    r.output = [(Double.zero, Double.zero), (Double.two, Double.zero)]

/-- A call with a missing buffer returns 0 and leaves the buffers as they are, and so
does every call on non-null buffers with `n == 0`. -/
def NullLikeEmpty (lon lat : Option (List Double)) (n : Int) (eps : Double)
    (outLon outLat : Option (List Double)) : Prop :=
  simplify_linestring lon lat n eps outLon outLat = .ok ⟨0, outLon, outLat⟩ ∧
  ∀ a b c d : List Double,
    simplify_linestring (some a) (some b) 0 eps (some c) (some d) = .ok ⟨0, some c, some d⟩

/-- Every point of the input polyline is the point `p`. -/
def AllSame (lon lat : List Double) (n : Int) (p : Point) : Prop :=
  inputPoints lon lat n = List.replicate n.toNat p

instance (lon lat : List Double) (n : Int) (p : Point) : Decidable (AllSame lon lat n p) :=
  inferInstanceAs (Decidable (inputPoints lon lat n = List.replicate n.toNat p))

/-- Of `n` copies of the point `p` the call keeps `(n + 1) / 2`, that is `n / 2`
rounded up: the two points `p`, `p` for `n` up to 4. -/
def HalfOfSame (n : Int) (p : Point) (r : Result) : Prop :=
  r.count = (n + 1) / 2 ∧ r.output = List.replicate ((n.toNat + 1) / 2) p ∧
  (n ≤ 4 → r.output = [p, p])

/-- Five coordinates 5: as longitudes and latitudes, five times the point (5, 5). -/
def fiveSame : List Double := List.replicate 5 Double.five

/-- The output is the input points at the even indices below `n`, in order, followed
by the last input point exactly when that differs from the last point at an even
index; the returned count is the number of output points. -/
def EverySecondThenLast (lon lat : List Double) (n : Int) (r : Result) : Prop :=
  ∃ e l, (inputPoints lon lat n)[2 * ((n.toNat + 1) / 2 - 1)]? = some e ∧
    (inputPoints lon lat n)[n.toNat - 1]? = some l ∧
    (∀ j, j < (n.toNat + 1) / 2 → r.output[j]? = (inputPoints lon lat n)[2 * j]?) ∧
    (Point.ne e l = true →
      r.output.length = (n.toNat + 1) / 2 + 1 ∧ r.output[(n.toNat + 1) / 2]? = some l) ∧
    (Point.ne e l = false → r.output.length = (n.toNat + 1) / 2) ∧
    r.count = (r.output.length : Nat)

/-- The returned count is `n / 2` when `n` is even and the last two input points are
equal, and `n / 2 + 1` (with `n / 2` rounded down) otherwise. -/
def CountFormula (lon lat : List Double) (n : Int) (r : Result) : Prop :=
  ∃ a b, (inputPoints lon lat n)[n.toNat - 2]? = some a ∧
    (inputPoints lon lat n)[n.toNat - 1]? = some b ∧
    ((n % 2 = 0 ∧ Point.eq a b = true) → r.count = n / 2) ∧
    (¬ (n % 2 = 0 ∧ Point.eq a b = true) → r.count = n / 2 + 1)

/-- The output buffers after the call, in `r`, against the buffers before it: the
entries at the indices from the returned count on are the same, and with a returned
count of 0 the buffers are the same altogether. -/
def FrameKept (outLon outLat : Option (List Double)) (r : Result) : Prop :=
  (∀ j : Nat, r.count ≤ (j : Int) →
    (r.outLon.getD [])[j]? = (outLon.getD [])[j]? ∧
    (r.outLat.getD [])[j]? = (outLat.getD [])[j]?) ∧
  (r.count = 0 → r.outLon = outLon ∧ r.outLat = outLat)

/-! ## Basic facts about the checked operations -/

theorem ok_bind {ε α β : Type} (a : α) (f : α → Except ε β) :
    (Except.ok a >>= f) = f a := rfl

theorem error_bind {ε α β : Type} (e : ε) (f : α → Except ε β) :
    (Except.error e >>= f) = Except.error e := rfl

theorem load_ok (buf : List Double) (i : Nat) (h : i < buf.length) :
    load buf (i : Int) = .ok buf[i] := by
  simp [load, List.getElem?_eq_getElem h]

theorem load_of_getElem? {buf : List Double} {i : Nat} {v : Double} (h : buf[i]? = some v) :
    load buf (i : Int) = .ok v := by
  simp [load, h]

theorem store_ok (buf : List Double) (i : Nat) (v : Double) (h : i < buf.length) :
    store buf (i : Int) v = .ok (buf.set i v) := by
  simp [store, h]

theorem checked_ok (v : Int) (h1 : -2147483648 ≤ v) (h2 : v ≤ 2147483647) :
    checked v = .ok v := by
  simp [checked, INT_MIN, INT_MAX, h1, h2]

theorem Filled.zero (src dst : List Double) (a b : Nat) : Filled src dst dst a b 0 := by
  simp [Filled]

theorem Filled.step {src dst res : List Double} {a b c : Nat} (hb : b < dst.length)
    (ha : a < src.length) (h : Filled src (dst.set b src[a]) res (a + 2) (b + 1) c) :
    Filled src dst res a b (c + 1) := by
  obtain ⟨hl, hframe, hfill⟩ := h
  refine ⟨by simpa using hl, ?_, ?_⟩
  · intro j hj
    rw [hframe j (by omega), List.getElem?_set]
    have : b ≠ j := by omega
    simp [this]
  · intro j hj
    cases j with
    | zero =>
      rw [Nat.add_zero, hframe b (by omega), List.getElem?_set]
      simp [hb, List.getElem?_eq_getElem ha]
    | succ j =>
      have e1 : b + (j + 1) = b + 1 + j := by omega
      have e2 : a + 2 * (j + 1) = a + 2 + 2 * j := by omega
      rw [e1, e2]
      exact hfill j (by omega)

theorem copyLoop_spec (lon lat : List Double) (m : Nat) (hm : m < 2147483647)
    (hlon : m ≤ lon.length) (hlat : m ≤ lat.length) :
    ∀ (fuel a b : Nat) (outLon outLat : List Double),
      a ≤ m + 1 → b ≤ a → (m + 1 - a) / 2 ≤ fuel →
      b + (m + 1 - a) / 2 ≤ outLon.length → b + (m + 1 - a) / 2 ≤ outLat.length →
      ∃ oLon oLat,
        copyLoop lon lat m fuel a b outLon outLat
          = .ok (((b + (m + 1 - a) / 2 : Nat) : Int), oLon, oLat) ∧
        Filled lon outLon oLon a b ((m + 1 - a) / 2) ∧
        Filled lat outLat oLat a b ((m + 1 - a) / 2) := by
  intro fuel
  induction fuel with
  | zero =>
    intro a b outLon outLat ha hb hf h1 h2
    have hc : (m + 1 - a) / 2 = 0 := by omega
    have hma : ¬ ((a : Int) < (m : Int)) := by omega
    refine ⟨outLon, outLat, ?_, ?_, ?_⟩
    · simp [copyLoop, hma, hc]
    · rw [hc]; exact Filled.zero _ _ _ _
    · rw [hc]; exact Filled.zero _ _ _ _
  | succ fuel ih =>
    intro a b outLon outLat ha hb hf h1 h2
    by_cases hlt : a < m
    · have hc : (m + 1 - a) / 2 = (m + 1 - (a + 2)) / 2 + 1 := by omega
      have hbl : b < outLon.length := by omega
      have hbl2 : b < outLat.length := by omega
      have hal : a < lon.length := by omega
      have hal2 : a < lat.length := by omega
      obtain ⟨oLon, oLat, hrun, hF1, hF2⟩ :=
        ih (a + 2) (b + 1) (outLon.set b lon[a]) (outLat.set b lat[a])
          (by omega) (by omega) (by omega) (by simp; omega) (by simp; omega)
      refine ⟨oLon, oLat, ?_, ?_, ?_⟩
      · have hlt2 : ((a : Int) < (m : Int)) := by omega
        have e1 : ((b : Int) + 1) = ((b + 1 : Nat) : Int) := by push_cast; rfl
        have e2 : ((a : Int) + 2) = ((a + 2 : Nat) : Int) := by push_cast; rfl
        have e3 : b + (m + 1 - a) / 2 = b + 1 + (m + 1 - (a + 2)) / 2 := by omega
        simp only [copyLoop, hlt2, if_true]
        rw [load_ok lon a hal, ok_bind, store_ok outLon b _ hbl, ok_bind,
          load_ok lat a hal2, ok_bind, store_ok outLat b _ hbl2, ok_bind,
          checked_ok _ (by omega) (by omega), ok_bind,
          checked_ok _ (by omega) (by omega), ok_bind, e1, e2, hrun, e3]
      · rw [hc]; exact Filled.step hbl hal hF1
      · rw [hc]; exact Filled.step hbl2 hal2 hF2
    · have hc : (m + 1 - a) / 2 = 0 := by omega
      have hma : ¬ ((a : Int) < (m : Int)) := by omega
      refine ⟨outLon, outLat, ?_, ?_, ?_⟩
      · simp [copyLoop, hma, hc]
      · rw [hc]; exact Filled.zero _ _ _ _
      · rw [hc]; exact Filled.zero _ _ _ _

theorem lastDiffers_ok {lon lat oLon oLat : List Double} {m c : Nat} {a b x y : Double}
    (hc : 1 ≤ c) (hcm : c ≤ m) (hm1 : 1 ≤ m) (hm : m < 2147483647)
    (ha : oLon[c - 1]? = some a) (hb : lon[m - 1]? = some b)
    (hx : oLat[c - 1]? = some x) (hy : lat[m - 1]? = some y) :
    lastDiffers lon lat (m : Int) (c : Int) oLon oLat = .ok (a.ne b || x.ne y) := by
  have e1 : ((c : Int) - 1) = ((c - 1 : Nat) : Int) := by omega
  have e2 : ((m : Int) - 1) = ((m - 1 : Nat) : Int) := by omega
  unfold lastDiffers
  rw [checked_ok _ (by omega) (by omega), ok_bind, checked_ok _ (by omega) (by omega), ok_bind,
    e1, e2, load_of_getElem? ha, ok_bind, load_of_getElem? hb, ok_bind]
  cases hab : a.ne b
  · simp only [Bool.false_eq_true, if_false, Bool.false_or]
    rw [load_of_getElem? hx, ok_bind, load_of_getElem? hy, ok_bind]
  · simp

theorem length_everySecond {α : Type} : ∀ l : List α, (everySecond l).length = (l.length + 1) / 2
  | [] => by simp [everySecond]
  | [_] => by simp [everySecond]
  | _ :: _ :: rest => by
    simp only [everySecond, List.length_cons, length_everySecond rest]
    omega

theorem getElem?_everySecond {α : Type} : ∀ (l : List α) (j : Nat), (everySecond l)[j]? = l[2 * j]?
  | [], j => by simp [everySecond]
  | [_], j => by
    cases j with
    | zero => simp [everySecond]
    | succ j =>
      have : 2 * (j + 1) = 2 * j + 1 + 1 := by omega
      simp [everySecond, this]
  | _ :: _ :: rest, j => by
    cases j with
    | zero => simp [everySecond]
    | succ j =>
      have : 2 * (j + 1) = 2 * j + 1 + 1 := by omega
      simp only [everySecond, List.getElem?_cons_succ, this]
      exact getElem?_everySecond rest j

theorem getElem?_zip_pointAt (lon lat : List Double) (j : Nat) :
    (lon.zip lat)[j]? = pointAt lon lat j := by
  unfold pointAt List.zip
  rw [List.getElem?_zipWith]
  cases lon[j]? <;> cases lat[j]? <;> rfl

theorem getElem?_inputPoints {lon lat : List Double} {m : Nat} (j : Nat) :
    (inputPoints lon lat (m : Int))[j]? = if j < m then pointAt lon lat j else none := by
  unfold inputPoints
  rw [getElem?_zip_pointAt]
  unfold pointAt
  simp only [Int.toNat_ofNat, List.getElem?_take]
  by_cases h : j < m <;> simp [h]

theorem length_inputPoints {lon lat : List Double} {m : Nat} (hlon : m ≤ lon.length)
    (hlat : m ≤ lat.length) : (inputPoints lon lat (m : Int)).length = m := by
  simp [inputPoints, hlon, hlat]

theorem lastPointDiffers_eq {P : List Point} {e l : Point}
    (he : P[2 * ((P.length + 1) / 2 - 1)]? = some e) (hl : P[P.length - 1]? = some l) :
    lastPointDiffers P = Point.ne e l := by
  unfold lastPointDiffers
  rw [List.getLast?_eq_getElem?, List.getLast?_eq_getElem?, getElem?_everySecond,
    length_everySecond, he, hl]

theorem length_keepEverySecond {P : List Point} (h2 : 2 ≤ P.length) :
    (keepEverySecond P).length = (P.length + 1) / 2 + (if lastPointDiffers P then 1 else 0) := by
  have h1 : ¬ P.length ≤ 1 := by omega
  have hl : ∃ l, P.getLast? = some l := by
    rw [List.getLast?_eq_getElem?]
    exact ⟨P[P.length - 1], List.getElem?_eq_getElem (by omega)⟩
  obtain ⟨l, hl⟩ := hl
  unfold keepEverySecond
  rw [if_neg h1, List.length_append, length_everySecond, hl]
  cases lastPointDiffers P <;> simp

theorem getElem?_keepEverySecond {P : List Point} (h2 : 2 ≤ P.length) (j : Nat) :
    (keepEverySecond P)[j]? =
      if j < (P.length + 1) / 2 then P[2 * j]?
      else if j = (P.length + 1) / 2 ∧ lastPointDiffers P = true then P[P.length - 1]?
      else none := by
  have h1 : ¬ P.length ≤ 1 := by omega
  unfold keepEverySecond
  rw [if_neg h1, List.getLast?_eq_getElem?]
  by_cases hj : j < (P.length + 1) / 2
  · rw [List.getElem?_append_left (by rw [length_everySecond]; exact hj), if_pos hj,
      getElem?_everySecond]
  · rw [List.getElem?_append_right (by rw [length_everySecond]; omega), if_neg hj,
      length_everySecond]
    have hl : P[P.length - 1]? = some P[P.length - 1] := List.getElem?_eq_getElem (by omega)
    rw [hl]
    cases hd : lastPointDiffers P
    · simp
    · by_cases hjc : j = (P.length + 1) / 2
      · simp [hjc]
      · have : j - (P.length + 1) / 2 ≠ 0 := by omega
        simp [hjc]
        omega

/-- The general path of `simplify_linestring` (at least two points, fewer than
`INT_MAX`, buffers of at least `n` entries): the call returns, the returned count
is the length of `keepEverySecond` of the input, the first `count` output pairs are
that list, and the output buffers are unchanged from index `count` on. -/
theorem simplify_linestring_eq (lon lat outLon outLat : List Double) (m : Nat) (eps : Double)
    (h2 : 2 ≤ m) (hm : m < 2147483647) (hlon : m ≤ lon.length) (hlat : m ≤ lat.length)
    (holon : m ≤ outLon.length) (holat : m ≤ outLat.length) :
    ∃ oLon oLat,
      simplify_linestring (some lon) (some lat) (m : Int) eps (some outLon) (some outLat)
        = .ok ⟨((keepEverySecond (inputPoints lon lat (m : Int))).length : Nat),
            some oLon, some oLat⟩ ∧
      oLon.length = outLon.length ∧ oLat.length = outLat.length ∧
      (∀ j, (keepEverySecond (inputPoints lon lat (m : Int))).length ≤ j →
        oLon[j]? = outLon[j]? ∧ oLat[j]? = outLat[j]?) ∧
      (∀ j, j < (keepEverySecond (inputPoints lon lat (m : Int))).length →
        pointAt oLon oLat j = (keepEverySecond (inputPoints lon lat (m : Int)))[j]?) := by
  obtain ⟨oLon1, oLat1, hrun, ⟨hl1, hfr1, hfi1⟩, ⟨hl2, hfr2, hfi2⟩⟩ :=
    copyLoop_spec lon lat m hm hlon hlat m 0 0 outLon outLat (by omega) (by omega) (by omega)
      (by omega) (by omega)
  simp only [Nat.sub_zero, Nat.zero_add, Nat.cast_zero] at hrun hfr1 hfi1 hfr2 hfi2
  have hPlen : (inputPoints lon lat (m : Int)).length = m := length_inputPoints hlon hlat
  have hc1 : 1 ≤ (m + 1) / 2 := by omega
  have hcm : (m + 1) / 2 < m := by omega
  have hea : lon[2 * ((m + 1) / 2 - 1)]? = some lon[2 * ((m + 1) / 2 - 1)] :=
    List.getElem?_eq_getElem (by omega)
  have hex : lat[2 * ((m + 1) / 2 - 1)]? = some lat[2 * ((m + 1) / 2 - 1)] :=
    List.getElem?_eq_getElem (by omega)
  have hlb : lon[m - 1]? = some lon[m - 1] := List.getElem?_eq_getElem (by omega)
  have hly : lat[m - 1]? = some lat[m - 1] := List.getElem?_eq_getElem (by omega)
  have hPe : (inputPoints lon lat (m : Int))[2 * ((m + 1) / 2 - 1)]?
      = some (lon[2 * ((m + 1) / 2 - 1)], lat[2 * ((m + 1) / 2 - 1)]) := by
    rw [getElem?_inputPoints, if_pos (by omega)]
    simp [pointAt, hea, hex]
  have hPl : (inputPoints lon lat (m : Int))[m - 1]? = some (lon[m - 1], lat[m - 1]) := by
    rw [getElem?_inputPoints, if_pos (by omega)]
    simp [pointAt, hlb, hly]
  have hd : lastPointDiffers (inputPoints lon lat (m : Int))
      = (lon[2 * ((m + 1) / 2 - 1)].ne lon[m - 1] || lat[2 * ((m + 1) / 2 - 1)].ne lat[m - 1]) := by
    rw [lastPointDiffers_eq (by rw [hPlen]; exact hPe) (by rw [hPlen]; exact hPl)]
    rfl
  have hld := @lastDiffers_ok lon lat oLon1 oLat1 _ _ _ _ _ _ hc1
    (Nat.le_of_lt hcm) (by omega) hm
    (by have := hfi1 ((m + 1) / 2 - 1) (by omega); simpa [hea] using this) hlb
    (by have := hfi2 ((m + 1) / 2 - 1) (by omega); simpa [hex] using this) hly
  rw [← hd] at hld
  have hKlen := @length_keepEverySecond (inputPoints lon lat (m : Int)) (by omega)
  have hKget := @getElem?_keepEverySecond (inputPoints lon lat (m : Int)) (by omega)
  rw [hPlen] at hKlen hKget
  have hn0 : ¬ ((m : Int) ≤ 0) := by omega
  have hn1 : ¬ ((m : Int) = 1) := by omega
  have hrun2 : simplify_linestring (some lon) (some lat) (m : Int) eps (some outLon) (some outLat)
      = (lastDiffers lon lat (m : Int) (((m + 1) / 2 : Nat) : Int) oLon1 oLat1 >>= fun b =>
          if b = true then do
            let k ← checked ((m : Int) - 1)
            let x ← load lon k
            let outLon ← store oLon1 (((m + 1) / 2 : Nat) : Int) x
            let y ← load lat k
            let outLat ← store oLat1 (((m + 1) / 2 : Nat) : Int) y
            let out ← checked ((((m + 1) / 2 : Nat) : Int) + 1)
            .ok ⟨out, some outLon, some outLat⟩
          else .ok ⟨(((m + 1) / 2 : Nat) : Int), some oLon1, some oLat1⟩) := by
    simp only [simplify_linestring, hn0, hn1, if_false, Int.toNat_ofNat, hrun, ok_bind]
  rw [hrun2, hld, ok_bind]
  cases hdv : lastPointDiffers (inputPoints lon lat (m : Int))
  · rw [hdv] at hKlen hKget
    simp only [Bool.false_eq_true, if_false, Nat.add_zero, and_false] at hKlen hKget ⊢
    refine ⟨oLon1, oLat1, by rw [hKlen], hl1, hl2, ?_, ?_⟩
    · intro j hj
      exact ⟨hfr1 j (by omega), hfr2 j (by omega)⟩
    · intro j hj
      rw [hKlen] at hj
      rw [hKget, if_pos hj, getElem?_inputPoints, if_pos (by omega)]
      unfold pointAt
      rw [hfi1 j hj, hfi2 j hj]
  · rw [hdv] at hKlen hKget
    simp only [if_true, and_true] at hKlen hKget ⊢
    have e1 : ((((m + 1) / 2 : Nat) : Int) + 1) = (((m + 1) / 2 + 1 : Nat) : Int) := by
      push_cast; rfl
    have e2 : ((m : Int) - 1) = ((m - 1 : Nat) : Int) := by omega
    rw [checked_ok _ (by omega) (by omega), ok_bind, e2, load_of_getElem? hlb, ok_bind,
      store_ok oLon1 _ _ (by omega), ok_bind, load_of_getElem? hly, ok_bind,
      store_ok oLat1 _ _ (by omega), ok_bind, checked_ok _ (by omega) (by omega), ok_bind, e1]
    refine ⟨oLon1.set ((m + 1) / 2) lon[m - 1], oLat1.set ((m + 1) / 2) lat[m - 1],
      by rw [hKlen], by simpa using hl1, by simpa using hl2, ?_, ?_⟩
    · intro j hj
      rw [hKlen] at hj
      have hne : (m + 1) / 2 ≠ j := by omega
      rw [List.getElem?_set, List.getElem?_set, if_neg hne, if_neg hne]
      exact ⟨hfr1 j (by omega), hfr2 j (by omega)⟩
    · intro j hj
      rw [hKlen] at hj
      rw [hKget]
      unfold pointAt
      rw [List.getElem?_set, List.getElem?_set]
      by_cases hjc : j < (m + 1) / 2
      · have hne : (m + 1) / 2 ≠ j := by omega
        rw [if_neg hne, if_neg hne, if_pos hjc, hfi1 j hjc, hfi2 j hjc, getElem?_inputPoints,
          if_pos (by omega)]
        rfl
      · have hje : (m + 1) / 2 = j := by omega
        have h1 : (m + 1) / 2 < oLon1.length := by omega
        have h2 : (m + 1) / 2 < oLat1.length := by omega
        rw [if_pos hje, if_pos hje, if_neg hjc, if_pos hje.symm, if_pos h1, if_pos h2, hPl]

theorem output_eq_of_fill {k : Nat} {oLon oLat : List Double} {K : List Point}
    (hk : K.length = k) (hfill : ∀ j, j < K.length → pointAt oLon oLat j = K[j]?) :
    (Result.mk (k : Int) (some oLon) (some oLat)).output = K := by
  apply List.ext_getElem?
  intro j
  unfold Result.output
  rw [getElem?_zip_pointAt]
  unfold pointAt
  simp only [Option.getD_some, Int.toNat_ofNat, List.getElem?_take]
  by_cases hj : j < k
  · have := hfill j (by omega)
    unfold pointAt at this
    simp only [hj, if_true]
    exact this
  · simp only [hj, if_false]
    rw [List.getElem?_eq_none (by omega)]

/-- Every call on buffers of at least `n` entries with `n` below `INT_MAX` returns:
the returned count is the length of `keepEverySecond` of the input polyline, the
first `count` output pairs are that list, the output buffers keep their sizes and
their entries from index `count` on. -/
theorem simplify_linestring_returns (lon lat outLon outLat : List Double) (n : Int) (eps : Double)
    (hn : n < 2147483647) (hv : ValidBuffers lon lat n outLon outLat) :
    ∃ oLon oLat,
      simplify_linestring (some lon) (some lat) n eps (some outLon) (some outLat)
        = .ok ⟨((keepEverySecond (inputPoints lon lat n)).length : Nat), some oLon, some oLat⟩ ∧
      oLon.length = outLon.length ∧ oLat.length = outLat.length ∧
      (∀ j, (keepEverySecond (inputPoints lon lat n)).length ≤ j →
        oLon[j]? = outLon[j]? ∧ oLat[j]? = outLat[j]?) ∧
      (∀ j, j < (keepEverySecond (inputPoints lon lat n)).length →
        pointAt oLon oLat j = (keepEverySecond (inputPoints lon lat n))[j]?) := by
  obtain ⟨h1, h2, h3, h4⟩ := hv
  by_cases h0 : n ≤ 0
  · have hP : inputPoints lon lat n = [] := by
      simp [inputPoints, Int.toNat_eq_zero.mpr h0]
    refine ⟨outLon, outLat, ?_, rfl, rfl, fun j _ => ⟨rfl, rfl⟩, ?_⟩
    · simp [simplify_linestring, h0, hP, keepEverySecond]
    · intro j hj
      simp [hP, keepEverySecond] at hj
  · by_cases h1n : n = 1
    · subst h1n
      have hl0 : 0 < lon.length := by omega
      have hl1 : 0 < lat.length := by omega
      have ho0 : 0 < outLon.length := by omega
      have ho1 : 0 < outLat.length := by omega
      have hP : inputPoints lon lat 1 = [(lon[0], lat[0])] := by
        apply List.ext_getElem?
        intro j
        have := @getElem?_inputPoints lon lat 1 j
        simp only [Nat.cast_one] at this
        rw [this]
        cases j with
        | zero => simp [pointAt, List.getElem?_eq_getElem hl0, List.getElem?_eq_getElem hl1]
        | succ j => simp
      have hK : keepEverySecond (inputPoints lon lat 1) = [(lon[0], lat[0])] := by
        rw [hP]; rfl
      refine ⟨outLon.set 0 lon[0], outLat.set 0 lat[0], ?_, by simp, by simp, ?_, ?_⟩
      · have := load_ok lon 0 hl0
        have := load_ok lat 0 hl1
        have := store_ok outLon 0 lon[0] ho0
        have := store_ok outLat 0 lat[0] ho1
        simp only [Nat.cast_zero] at *
        simp only [simplify_linestring, if_true, *, ok_bind, hK]
        simp [keepEverySecond]
      · intro j hj
        rw [hK] at hj
        simp only [List.length_singleton] at hj
        have hne : 0 ≠ j := by omega
        rw [List.getElem?_set, List.getElem?_set, if_neg hne, if_neg hne]
        exact ⟨rfl, rfl⟩
      · intro j hj
        rw [hK] at hj ⊢
        simp only [List.length_singleton] at hj
        have hj0 : j = 0 := by omega
        subst hj0
        simp [pointAt, ho0, ho1]
    · have hnm : n = ((n.toNat : Nat) : Int) := by omega
      rw [hnm]
      exact simplify_linestring_eq lon lat outLon outLat n.toNat eps (by omega) (by omega)
        (by omega) (by omega) (by omega) (by omega)

theorem bind_eq_ok {ε α β : Type} {x : Except ε α} {f : α → Except ε β} {b : β}
    (h : (x >>= f) = .ok b) : ∃ a, x = .ok a ∧ f a = .ok b := by
  cases x with
  | error e => rw [error_bind] at h; cases h
  | ok a => exact ⟨a, rfl, h⟩

theorem checked_eq_ok {v w : Int} (h : checked v = .ok w) :
    w = v ∧ -2147483648 ≤ v ∧ v ≤ 2147483647 := by
  unfold checked INT_MIN INT_MAX at h
  split at h
  · rename_i hv
    cases h
    exact ⟨rfl, hv.1, hv.2⟩
  · cases h

/-- The loop returns only when the bound `n` is below `INT_MAX`: the counter `i`
stays even, so it cannot reach an odd `n = INT_MAX` without leaving the `int`
range. -/
theorem copyLoop_ok_bound (lon lat : List Double) (n : Int) :
    ∀ (fuel : Nat) (i out : Int) (oLon oLat : List Double)
      (r : Int × List Double × List Double),
      i % 2 = 0 → i ≤ 2147483646 → copyLoop lon lat n fuel i out oLon oLat = .ok r →
      n ≤ 2147483646 := by
  intro fuel
  induction fuel with
  | zero =>
    intro i out oLon oLat r hi hb h
    unfold copyLoop at h
    split at h
    · cases h
    · omega
  | succ fuel ih =>
    intro i out oLon oLat r hi hb h
    unfold copyLoop at h
    split at h
    · obtain ⟨x, _, h⟩ := bind_eq_ok h
      obtain ⟨oLon1, _, h⟩ := bind_eq_ok h
      obtain ⟨y, _, h⟩ := bind_eq_ok h
      obtain ⟨oLat1, _, h⟩ := bind_eq_ok h
      obtain ⟨out1, _, h⟩ := bind_eq_ok h
      obtain ⟨i1, hi1, h⟩ := bind_eq_ok h
      obtain ⟨rfl, _, hle⟩ := checked_eq_ok hi1
      exact ih (i + 2) out1 oLon1 oLat1 r (by omega) (by omega) h
    · omega

theorem lt_of_returns {lon lat outLon outLat : List Double} {n : Int} {eps : Double} {r : Result}
    (h : simplify_linestring (some lon) (some lat) n eps (some outLon) (some outLat) = .ok r) :
    n < 2147483647 := by
  by_cases h0 : n ≤ 0
  · omega
  · by_cases h1 : n = 1
    · omega
    · simp only [simplify_linestring, h0, h1, if_false] at h
      obtain ⟨x, hx, _⟩ := bind_eq_ok h
      have := copyLoop_ok_bound lon lat n n.toNat 0 0 outLon outLat x (by omega) (by omega) hx
      omega

/-- A call on buffers of at least `n` entries with `n` below `INT_MAX` returns a
result, and that result is the one `Computes` describes. -/
theorem returns_computes (lon lat outLon outLat : List Double) (n : Int) (eps : Double)
    (hn : n < 2147483647) (hv : ValidBuffers lon lat n outLon outLat) :
    ∃ r, simplify_linestring (some lon) (some lat) n eps (some outLon) (some outLat) = .ok r ∧
      Computes lon lat n outLon outLat r := by
  obtain ⟨oLon, oLat, hrun, hl1, hl2, hframe, hfill⟩ :=
    simplify_linestring_returns lon lat outLon outLat n eps hn hv
  exact ⟨_, hrun, ⟨rfl, output_eq_of_fill rfl hfill, oLon, oLat, rfl, rfl, hl1, hl2, hframe⟩⟩

/-- Whatever a call on buffers of at least `n` entries returns is the result
`Computes` describes. -/
theorem computes_of_ok {lon lat outLon outLat : List Double} {n : Int} {eps : Double}
    {r : Result} (hv : ValidBuffers lon lat n outLon outLat)
    (h : simplify_linestring (some lon) (some lat) n eps (some outLon) (some outLat) = .ok r) :
    Computes lon lat n outLon outLat r := by
  obtain ⟨r1, hr1, hc⟩ := returns_computes lon lat outLon outLat n eps (lt_of_returns h) hv
  rw [h] at hr1
  cases hr1
  exact hc

/-! ## Facts about the doubles and the kept indices -/

theorem Double.isNaN_of_isFinite {x : Double} (h : x.isFinite = true) : x.isNaN = false := by
  unfold Double.isFinite at h
  unfold Double.isNaN
  simp only [bne_iff_ne, ne_eq] at h
  simp [h]

theorem Double.eq_self {x : Double} (h : x.isFinite = true) : x.eq x = true := by
  simp [Double.eq, Double.isNaN_of_isFinite h]

theorem Double.ne_self {x : Double} (h : x.isFinite = true) : x.ne x = false := by
  simp [Double.ne, Double.eq_self h]

theorem Point.ne_eq_not_eq (p q : Point) : Point.ne p q = !(Point.eq p q) := by
  unfold Point.ne Point.eq Double.ne
  cases p.1.eq q.1 <;> cases p.2.eq q.2 <;> rfl

theorem Point.ne_irrefl {p : Point} (h : Point.isFinite p = true) : Point.ne p p = false := by
  unfold Point.isFinite at h
  simp only [Bool.and_eq_true] at h
  simp [Point.ne, Double.ne_self h.1, Double.ne_self h.2]

theorem Point.eq_refl_of_finite {p : Point} (h : Point.isFinite p = true) : Point.eq p p = true := by
  have := Point.ne_irrefl h
  rw [Point.ne_eq_not_eq] at this
  simpa using this

theorem getElem?_keptIndices {P : List Point} (h2 : 2 ≤ P.length) (j : Nat) :
    (keptIndices P)[j]? =
      if j < (P.length + 1) / 2 then some (2 * j)
      else if j = (P.length + 1) / 2 ∧ lastPointDiffers P = true then some (P.length - 1)
      else none := by
  have h1 : ¬ P.length ≤ 1 := by omega
  unfold keptIndices
  rw [if_neg h1]
  by_cases hj : j < (P.length + 1) / 2
  · rw [List.getElem?_append_left (by simpa using hj), if_pos hj, List.getElem?_map,
      List.getElem?_range hj]
    rfl
  · rw [List.getElem?_append_right (by simp; omega), if_neg hj]
    simp only [List.length_map, List.length_range]
    cases hd : lastPointDiffers P
    · simp
    · by_cases hjc : j = (P.length + 1) / 2
      · simp [hjc]
      · have : j - (P.length + 1) / 2 ≠ 0 := by omega
        simp [hjc]
        omega

/-- The points kept are the input points at the kept indices. -/
theorem map_keptIndices (P : List Point) :
    (keptIndices P).map (fun i => P[i]?) = (keepEverySecond P).map some := by
  by_cases h1 : P.length ≤ 1
  · unfold keptIndices keepEverySecond
    rw [if_pos h1, if_pos h1]
    apply List.ext_getElem?
    intro j
    rw [List.getElem?_map, List.getElem?_map]
    by_cases hj : j < P.length
    · rw [List.getElem?_range hj, List.getElem?_eq_getElem hj]
      simp [List.getElem?_eq_getElem hj]
    · rw [List.getElem?_eq_none (by simpa using hj), List.getElem?_eq_none (by omega)]
      rfl
  · have h2 : 2 ≤ P.length := by omega
    apply List.ext_getElem?
    intro j
    rw [List.getElem?_map, List.getElem?_map, getElem?_keptIndices h2,
      getElem?_keepEverySecond h2]
    by_cases hj : j < (P.length + 1) / 2
    · rw [if_pos hj, if_pos hj]
      have : 2 * j < P.length := by omega
      simp [List.getElem?_eq_getElem this]
    · rw [if_neg hj, if_neg hj]
      by_cases hjc : j = (P.length + 1) / 2 ∧ lastPointDiffers P = true
      · rw [if_pos hjc, if_pos hjc]
        have : P.length - 1 < P.length := by omega
        simp [List.getElem?_eq_getElem this]
      · rw [if_neg hjc, if_neg hjc]
        rfl

theorem length_keptIndices (P : List Point) :
    (keptIndices P).length = (keepEverySecond P).length := by
  have := congrArg List.length (map_keptIndices P)
  simpa using this

theorem keptIndices_lt (P : List Point) : ∀ i ∈ keptIndices P, i < P.length := by
  intro i hi
  unfold keptIndices at hi
  split at hi
  · exact List.mem_range.mp hi
  · rw [List.mem_append] at hi
    rcases hi with hi | hi
    · rw [List.mem_map] at hi
      obtain ⟨j, hj, rfl⟩ := hi
      rw [List.mem_range] at hj
      omega
    · split at hi
      · simp only [List.mem_singleton] at hi
        omega
      · cases hi

/-- On finite coordinates the last point is appended only when the last even index
is not the last index, so the kept indices increase strictly. -/
theorem pairwise_keptIndices (P : List Point) (hfin : ∀ p ∈ P, Point.isFinite p = true) :
    (keptIndices P).Pairwise (· < ·) := by
  unfold keptIndices
  split
  · exact List.pairwise_lt_range _
  · rename_i h1
    have h2 : 2 ≤ P.length := by omega
    rw [List.pairwise_append]
    refine ⟨?_, ?_, ?_⟩
    · rw [List.pairwise_map]
      exact (List.pairwise_lt_range _).imp (by intro a b h; omega)
    · split <;> simp
    · intro a ha b hb
      rw [List.mem_map] at ha
      obtain ⟨j, hj, rfl⟩ := ha
      rw [List.mem_range] at hj
      split at hb
      · rename_i hd
        simp only [List.mem_singleton] at hb
        subst hb
        by_contra hlt
        have hidx : 2 * ((P.length + 1) / 2 - 1) = P.length - 1 := by omega
        have hl : P[P.length - 1]? = some P[P.length - 1] :=
          List.getElem?_eq_getElem (by omega)
        have := @lastPointDiffers_eq P _ _ (by rw [hidx]; exact hl) hl
        rw [this, Point.ne_irrefl (hfin _ (List.getElem_mem _))] at hd
        cases hd
      · cases hb

/-! ## The claims -/

theorem keepEverySecond_endpoints (P : List Point) (h1 : 1 ≤ P.length)
    (hfin : ∀ p ∈ P, Point.isFinite p = true) :
    ∃ p q s t, (keepEverySecond P)[0]? = some p ∧ P[0]? = some q ∧ Point.eq p q = true ∧
      (keepEverySecond P)[(keepEverySecond P).length - 1]? = some s ∧
      P[P.length - 1]? = some t ∧ Point.eq s t = true := by
  have h0 : P[0]? = some P[0] := List.getElem?_eq_getElem (by omega)
  have hl : P[P.length - 1]? = some P[P.length - 1] := List.getElem?_eq_getElem (by omega)
  by_cases hle : P.length ≤ 1
  · have hK : keepEverySecond P = P := by simp [keepEverySecond, hle]
    rw [hK]
    exact ⟨_, _, _, _, h0, h0, Point.eq_refl_of_finite (hfin _ (List.getElem_mem _)), hl, hl,
      Point.eq_refl_of_finite (hfin _ (List.getElem_mem _))⟩
  · have h2 : 2 ≤ P.length := by omega
    have hK0 : (keepEverySecond P)[0]? = some P[0] := by
      rw [getElem?_keepEverySecond h2, if_pos (by omega)]
      exact h0
    have hlen := length_keepEverySecond h2
    have he : P[2 * ((P.length + 1) / 2 - 1)]? = some P[2 * ((P.length + 1) / 2 - 1)] :=
      List.getElem?_eq_getElem (by omega)
    cases hd : lastPointDiffers P
    · rw [hd] at hlen
      simp only [Bool.false_eq_true, if_false, Nat.add_zero] at hlen
      refine ⟨P[0], P[0], P[2 * ((P.length + 1) / 2 - 1)], P[P.length - 1], hK0, h0,
        Point.eq_refl_of_finite (hfin _ (List.getElem_mem _)), ?_, hl, ?_⟩
      · simp only [hlen]
        rw [getElem?_keepEverySecond h2, if_pos (by omega)]
        exact he
      · have := lastPointDiffers_eq he hl
        rw [hd, Point.ne_eq_not_eq] at this
        simpa using this.symm
    · rw [hd] at hlen
      simp only [if_true] at hlen
      refine ⟨P[0], P[0], P[P.length - 1], P[P.length - 1], hK0, h0,
        Point.eq_refl_of_finite (hfin _ (List.getElem_mem _)), ?_, hl,
        Point.eq_refl_of_finite (hfin _ (List.getElem_mem _))⟩
      simp only [hlen, Nat.add_sub_cancel]
      rw [getElem?_keepEverySecond h2, if_neg (by omega), if_pos ⟨rfl, hd⟩]
      exact hl

/-- C1: for every valid input (non-null buffers holding `n` entries, `n >= 0`,
finite coordinates) and every tolerance, the output of `simplify_linestring` is the
input read at strictly increasing indices `i_0 < i_1 < ... < i_{k-1} < n`, with `k`
the returned count: no new points, no reordering. The call returns whenever `n` is
below `INT_MAX`. -/
theorem C1_output_is_subsequence (lon lat outLon outLat : List Double) (n : Int) (eps : Double)
    (hn : 0 ≤ n) (hv : ValidBuffers lon lat n outLon outLat) (hfin : FiniteCoords lon lat n) :
    (n < 2147483647 →
      Returns (simplify_linestring (some lon) (some lat) n eps (some outLon) (some outLat))) ∧
    ∀ r, simplify_linestring (some lon) (some lat) n eps (some outLon) (some outLat) = .ok r →
      SubsequenceOfInput lon lat n r := by
  refine ⟨fun hlt => ?_, fun r hr => ?_⟩
  · obtain ⟨r, hr, _⟩ := returns_computes lon lat outLon outLat n eps hlt hv
    exact ⟨r, hr⟩
  · have hc := computes_of_ok hv hr
    have hnm : n = ((n.toNat : Nat) : Int) := by omega
    have hPlen : (inputPoints lon lat n).length = n.toNat := by
      rw [hnm]
      exact length_inputPoints (by have := hv.1; omega) (by have := hv.2.1; omega)
    refine ⟨keptIndices (inputPoints lon lat n), ?_, pairwise_keptIndices _ hfin, ?_, ?_⟩
    · rw [hc.count_eq, length_keptIndices]
    · intro i hi
      have := keptIndices_lt _ i hi
      omega
    · rw [hc.output_eq]
      exact map_keptIndices _

/-- C1 at the sample input: five finite points, five-entry output buffers. -/
theorem C1_output_is_subsequence_witness :
    (0 : Int) ≤ 5 ∧ ValidBuffers sampleLon sampleLat 5 sampleOut sampleOut ∧
    FiniteCoords sampleLon sampleLat 5 ∧
    ((5 : Int) < 2147483647 →
      Returns (simplify_linestring (some sampleLon) (some sampleLat) 5 Double.one
        (some sampleOut) (some sampleOut))) ∧
    ∀ r, simplify_linestring (some sampleLon) (some sampleLat) 5 Double.one
        (some sampleOut) (some sampleOut) = .ok r →
      SubsequenceOfInput sampleLon sampleLat 5 r :=
  ⟨by decide, by decide, by decide,
    C1_output_is_subsequence sampleLon sampleLat sampleOut sampleOut 5 Double.one
      (by decide) (by decide) (by decide)⟩

/-- C2: for every valid input with `n >= 1` (non-null buffers holding `n` entries,
finite coordinates) and every tolerance, with `k` the returned count,
`output[0] == input[0]` and `output[k-1] == input[n-1]`, in longitude and in
latitude. The call returns whenever `n` is below `INT_MAX`. -/
theorem C2_endpoints_kept (lon lat outLon outLat : List Double) (n : Int) (eps : Double)
    (hn : 1 ≤ n) (hv : ValidBuffers lon lat n outLon outLat) (hfin : FiniteCoords lon lat n) :
    (n < 2147483647 →
      Returns (simplify_linestring (some lon) (some lat) n eps (some outLon) (some outLat))) ∧
    ∀ r, simplify_linestring (some lon) (some lat) n eps (some outLon) (some outLat) = .ok r →
      EndpointsKept lon lat n r := by
  refine ⟨fun hlt => ?_, fun r hr => ?_⟩
  · obtain ⟨r, hr, _⟩ := returns_computes lon lat outLon outLat n eps hlt hv
    exact ⟨r, hr⟩
  · have hc := computes_of_ok hv hr
    have hnm : n = ((n.toNat : Nat) : Int) := by omega
    have hPlen : (inputPoints lon lat n).length = n.toNat := by
      rw [hnm]
      exact length_inputPoints (by have := hv.1; omega) (by have := hv.2.1; omega)
    obtain ⟨p, q, s, t, h1, h2, h3, h4, h5, h6⟩ :=
      keepEverySecond_endpoints (inputPoints lon lat n) (by omega) hfin
    refine ⟨p, q, s, t, by rw [hc.output_eq]; exact h1, h2, h3, ?_, ?_, h6⟩
    · rw [hc.output_eq, hc.count_eq]
      have e : (((keepEverySecond (inputPoints lon lat n)).length : Int) - 1).toNat
          = (keepEverySecond (inputPoints lon lat n)).length - 1 := by omega
      rw [e]
      exact h4
    · have e : (n - 1).toNat = (inputPoints lon lat n).length - 1 := by omega
      rw [e]
      exact h5

/-- C2 at the sample input: five finite points, five-entry output buffers. -/
theorem C2_endpoints_kept_witness :
    (1 : Int) ≤ 5 ∧ ValidBuffers sampleLon sampleLat 5 sampleOut sampleOut ∧
    FiniteCoords sampleLon sampleLat 5 ∧
    ((5 : Int) < 2147483647 →
      Returns (simplify_linestring (some sampleLon) (some sampleLat) 5 Double.one
        (some sampleOut) (some sampleOut))) ∧
    ∀ r, simplify_linestring (some sampleLon) (some sampleLat) 5 Double.one
        (some sampleOut) (some sampleOut) = .ok r →
      EndpointsKept sampleLon sampleLat 5 r :=
  ⟨by decide, by decide, by decide,
    C2_endpoints_kept sampleLon sampleLat sampleOut sampleOut 5 Double.one
      (by decide) (by decide) (by decide)⟩

theorem mem_keptIndices {P : List Point} (h2 : 2 ≤ P.length) (i : Nat) :
    i ∈ keptIndices P ↔
      (i % 2 = 0 ∧ i < P.length) ∨ (lastPointDiffers P = true ∧ i = P.length - 1) := by
  have h1 : ¬ P.length ≤ 1 := by omega
  unfold keptIndices
  rw [if_neg h1, List.mem_append, List.mem_map]
  constructor
  · rintro (⟨j, hj, rfl⟩ | hi)
    · rw [List.mem_range] at hj
      left
      omega
    · right
      split at hi
      · rename_i hd
        exact ⟨hd, by simpa using hi⟩
      · cases hi
  · rintro (⟨hev, hlt⟩ | ⟨hd, rfl⟩)
    · left
      exact ⟨i / 2, List.mem_range.mpr (by omega), by omega⟩
    · right
      simp [hd]

/-- For an even number of points the comparison of line 35 is between the last two
input points. -/
theorem lastPointDiffers_even {P : List Point} (h2 : 2 ≤ P.length) (hev : P.length % 2 = 0)
    {a b : Point} (ha : P[P.length - 2]? = some a) (hb : P[P.length - 1]? = some b) :
    lastPointDiffers P = Point.ne a b := by
  have hidx : 2 * ((P.length + 1) / 2 - 1) = P.length - 2 := by omega
  exact lastPointDiffers_eq (by rw [hidx]; exact ha) hb

/-- C3, refuted: whatever distance test one fixes, if it puts the point (1, 1) more
than 0 metres from the segment from (0, 0) to (2, 0), the distance bound fails on
the code: on the polyline (0,0), (1,1), (2,0) with tolerance 0 the call returns
(0,0), (2,0) and so drops (1,1). -/
theorem C3_distance_bound_fails :
    ¬ ∃ within : Point → Point → Point → Double → Prop,
      ¬ within (Double.one, Double.one) (Double.zero, Double.zero) (Double.two, Double.zero)
          Double.zero ∧
      DistanceBound within := by
  rintro ⟨within, hnot, hclaim⟩
  have hrun : simplify_linestring (some bumpLon) (some bumpLat) 3 Double.zero
      (some bumpOut) (some bumpOut)
      = .ok ⟨2, some [Double.zero, Double.two, Double.five],
          some [Double.zero, Double.zero, Double.five]⟩ := rfl
  obtain ⟨idx, _, hmap, hall⟩ :=
    hclaim bumpLon bumpLat bumpOut bumpOut 3 Double.zero _ (by decide) (by decide) (by decide)
      (by decide) hrun
  have hP : inputPoints bumpLon bumpLat 3
      = [(Double.zero, Double.zero), (Double.one, Double.one), (Double.two, Double.zero)] := rfl
  have hO : (Result.mk 2 (some [Double.zero, Double.two, Double.five])
      (some [Double.zero, Double.zero, Double.five])).output
      = [(Double.zero, Double.zero), (Double.two, Double.zero)] := rfl
  rw [hP, hO] at hmap
  rw [hP] at hall
  match idx, hmap with
  | [i0, i1], hmap =>
    simp only [List.map_cons, List.map_nil, List.cons.injEq, and_true] at hmap
    obtain ⟨h0, h1⟩ := hmap
    have hi0 : i0 = 0 := by
      match i0, h0 with
      | 0, _ => rfl
      | 1, h0 => exact absurd h0 (by decide)
      | 2, h0 => exact absurd h0 (by decide)
      | k + 3, h0 => simp at h0
    have hi1 : i1 = 2 := by
      match i1, h1 with
      | 0, h1 => exact absurd h1 (by decide)
      | 1, h1 => exact absurd h1 (by decide)
      | 2, _ => rfl
      | k + 3, h1 => simp at h1
    subst hi0 hi1
    exact hnot (hall 0 0 2 1 _ _ _ rfl rfl (by omega) (by omega) rfl rfl rfl)
  | [], hmap => simp at hmap
  | [_], hmap => simp at hmap
  | _ :: _ :: _ :: _, hmap => simp at hmap

/-- C3, amended: for every valid input (non-null buffers holding `n` entries,
`n >= 0`, finite coordinates) the points `simplify_linestring` drops are those at
the odd input indices, except a last point at an odd index that differs from the
point before it, which is kept; this is so for every tolerance alike, and no
distance to the output segment enters. -/
theorem C3_drops_odd_indices (lon lat outLon outLat : List Double) (n : Int)
    (hn : 0 ≤ n) (hv : ValidBuffers lon lat n outLon outLat) (hfin : FiniteCoords lon lat n) :
    DropsOddIndices lon lat n outLon outLat := by
  have hnm : n = ((n.toNat : Nat) : Int) := by omega
  have hPlen : (inputPoints lon lat n).length = n.toNat := by
    rw [hnm]
    exact length_inputPoints (by have := hv.1; omega) (by have := hv.2.1; omega)
  refine ⟨keptIndices (inputPoints lon lat n), pairwise_keptIndices _ hfin, ?_, ?_⟩
  · intro i hi
    by_cases h1 : (inputPoints lon lat n).length ≤ 1
    · have hi0 : i = 0 := by omega
      subst hi0
      have : 0 ∈ keptIndices (inputPoints lon lat n) := by
        unfold keptIndices
        rw [if_pos h1, List.mem_range]
        omega
      simp [this]
    · have h2 : 2 ≤ (inputPoints lon lat n).length := by omega
      rw [mem_keptIndices h2]
      by_cases hev : i % 2 = 0
      · have : i < (inputPoints lon lat n).length := by omega
        simp [hev, this]
      · have hodd : i % 2 = 1 := by omega
        by_cases hlast : i = (inputPoints lon lat n).length - 1
        · have hlen_ev : (inputPoints lon lat n).length % 2 = 0 := by omega
          have ha : (inputPoints lon lat n)[(inputPoints lon lat n).length - 2]?
              = some (inputPoints lon lat n)[(inputPoints lon lat n).length - 2] :=
            List.getElem?_eq_getElem (by omega)
          have hb : (inputPoints lon lat n)[(inputPoints lon lat n).length - 1]?
              = some (inputPoints lon lat n)[(inputPoints lon lat n).length - 1] :=
            List.getElem?_eq_getElem (by omega)
          have hd := lastPointDiffers_even h2 hlen_ev ha hb
          have e1 : i - 1 = (inputPoints lon lat n).length - 2 := by omega
          have e2 : (i : Int) = n - 1 := by omega
          constructor
          · intro h
            refine ⟨hodd, ?_⟩
            rintro ⟨_, a, b, hab1, hab2, hne⟩
            apply h
            right
            refine ⟨?_, hlast⟩
            rw [e1, ha] at hab1
            rw [hlast, hb] at hab2
            cases hab1
            cases hab2
            rw [hd]
            exact hne
          · rintro ⟨_, h⟩ (⟨h0, _⟩ | ⟨hdt, _⟩)
            · omega
            · apply h
              refine ⟨e2, (inputPoints lon lat n)[(inputPoints lon lat n).length - 2],
                (inputPoints lon lat n)[(inputPoints lon lat n).length - 1], ?_, ?_, ?_⟩
              · exact (congrArg (fun k => (inputPoints lon lat n)[k]?) e1).trans ha
              · exact (congrArg (fun k => (inputPoints lon lat n)[k]?) hlast).trans hb
              · rw [← hd]; exact hdt
        · have e2 : ¬ ((i : Int) = n - 1) := by omega
          simp [hodd, hlast, e2]
  · intro eps
    refine ⟨fun hlt => ?_, fun r hr => ?_⟩
    · obtain ⟨r, hr, _⟩ := returns_computes lon lat outLon outLat n eps hlt hv
      exact ⟨r, hr⟩
    · rw [(computes_of_ok hv hr).output_eq]
      exact map_keptIndices _

/-- C3 amended, at the sample input: five finite points, five-entry output buffers. -/
theorem C3_drops_odd_indices_witness :
    (0 : Int) ≤ 5 ∧ ValidBuffers sampleLon sampleLat 5 sampleOut sampleOut ∧
    FiniteCoords sampleLon sampleLat 5 ∧
    DropsOddIndices sampleLon sampleLat 5 sampleOut sampleOut :=
  ⟨by decide, by decide, by decide,
    C3_drops_odd_indices sampleLon sampleLat sampleOut sampleOut 5
      (by decide) (by decide) (by decide)⟩

theorem keepEverySecond_pair (p q : Point) :
    keepEverySecond [p, q] = if Point.ne p q = true then [p, q] else [p] := by
  have hd : lastPointDiffers [p, q] = Point.ne p q := rfl
  unfold keepEverySecond
  rw [hd]
  cases Point.ne p q <;> rfl

theorem keepEverySecond_small {P : List Point} (h : P.length ≤ 1) : keepEverySecond P = P := by
  unfold keepEverySecond
  rw [if_pos h]

theorem length_keepEverySecond_small {P : List Point} (h : P.length ≤ 1) :
    (keepEverySecond P).length = P.length := by
  simp [keepEverySecond, h]

theorem length_keepEverySecond_le (P : List Point) :
    (keepEverySecond P).length ≤ P.length := by
  by_cases h : P.length ≤ 1
  · rw [length_keepEverySecond_small h]
  · rw [length_keepEverySecond (by omega)]
    split <;> omega

theorem length_inputPoints_of_valid {lon lat outLon outLat : List Double} {n : Int}
    (hv : ValidBuffers lon lat n outLon outLat) : (inputPoints lon lat n).length = n.toNat := by
  unfold inputPoints
  have := hv.1
  have := hv.2.1
  simp only [List.length_zip, List.length_take]
  omega

/-- C4, refuted: on the two equal points (5, 5), (5, 5) the call returns 1, not 2,
and the output is the single point (5, 5), not the input. -/
theorem C4_equal_pair_returns_one :
    ∃ r, simplify_linestring (some twinCoords) (some twinCoords) 2 Double.one
        (some twinOut) (some twinOut) = .ok r ∧
      r.count = 1 ∧ r.output = [(Double.five, Double.five)] ∧
      r.output ≠ inputPoints twinCoords twinCoords 2 :=
  ⟨_, rfl, rfl, rfl, by decide⟩

/-- C4, amended: for every valid input with `n == 2` and every tolerance the call
returns; when the two points differ (in longitude or in latitude) it returns 2 and
the output equals the input exactly; when they are equal it returns 1 and the
output is the first point alone. -/
theorem C4_two_points (lon lat outLon outLat : List Double) (eps : Double)
    (hv : ValidBuffers lon lat 2 outLon outLat) :
    TwoPointResult lon lat outLon outLat eps := by
  obtain ⟨r, hr, hc⟩ := returns_computes lon lat outLon outLat 2 eps (by omega) hv
  have hlen : (inputPoints lon lat 2).length = 2 := length_inputPoints_of_valid hv
  obtain ⟨p, q, hP⟩ := List.length_eq_two.mp hlen
  have hK := keepEverySecond_pair p q
  refine ⟨r, p, q, hr, hP, ?_, ?_⟩
  · intro hne
    rw [hne, if_pos rfl] at hK
    rw [hc.count_eq, hc.output_eq, hP, hK]
    exact ⟨rfl, rfl⟩
  · intro hne
    rw [hne, if_neg (by decide)] at hK
    rw [hc.count_eq, hc.output_eq, hP, hK]
    exact ⟨rfl, rfl⟩

/-- C4 amended, at the two equal points (5, 5), (5, 5). -/
theorem C4_two_points_witness :
    ValidBuffers twinCoords twinCoords 2 twinOut twinOut ∧
    TwoPointResult twinCoords twinCoords twinOut twinOut Double.one :=
  ⟨by decide, C4_two_points twinCoords twinCoords twinOut twinOut Double.one (by decide)⟩

/-- C5, refuted: on the two points (+0.0, 1), (-0.0, 1), which are equal, the call
returns the count 1 although `n` is 2. -/
theorem C5_count_one_for_two_points :
    ¬ ∀ r, simplify_linestring (some signedZeroLon) (some signedZeroLat) 2 Double.one
        (some twinOut) (some twinOut) = .ok r → (r.count = 1 ↔ (2 : Int) = 1) := by
  intro h
  have := (h ⟨1, some [Double.zero, Double.zero], some [Double.one, Double.zero]⟩ rfl).mp rfl
  omega

/-- C5, amended: for every valid input (non-null buffers holding `n` entries,
`n >= 0`) and every tolerance, the returned count is 1 if and only if `n == 1`, or
`n == 2` and the two points are equal; for every `n >= 3` the returned count is at
least 2. The call returns whenever `n` is below `INT_MAX`. -/
theorem C5_count_one_iff (lon lat outLon outLat : List Double) (n : Int) (eps : Double)
    (hn : 0 ≤ n) (hv : ValidBuffers lon lat n outLon outLat) :
    (n < 2147483647 →
      Returns (simplify_linestring (some lon) (some lat) n eps (some outLon) (some outLat))) ∧
    ∀ r, simplify_linestring (some lon) (some lat) n eps (some outLon) (some outLat) = .ok r →
      CountOneIff lon lat n r := by
  refine ⟨fun hlt => ?_, fun r hr => ?_⟩
  · obtain ⟨r, hr, _⟩ := returns_computes lon lat outLon outLat n eps hlt hv
    exact ⟨r, hr⟩
  · have hc := computes_of_ok hv hr
    have hlen : (inputPoints lon lat n).length = n.toNat := length_inputPoints_of_valid hv
    have hcount := hc.count_eq
    by_cases h1 : (inputPoints lon lat n).length ≤ 1
    · have := length_keepEverySecond_small h1
      refine ⟨⟨fun h => Or.inl (by omega), ?_⟩, fun h => by omega⟩
      rintro (h | ⟨h, _⟩) <;> omega
    · by_cases h2 : (inputPoints lon lat n).length = 2
      · obtain ⟨p, q, hP⟩ := List.length_eq_two.mp h2
        have hK := keepEverySecond_pair p q
        rw [hP] at hcount
        rw [hK] at hcount
        refine ⟨⟨fun h => Or.inr ⟨by omega, p, q, hP, ?_⟩, ?_⟩, fun h => by omega⟩
        · cases hne : Point.ne p q
          · rfl
          · rw [hne, if_pos rfl] at hcount
            simp only [List.length_cons, List.length_nil] at hcount
            omega
        · rintro (h | ⟨_, a, b, hab, hne⟩)
          · omega
          · rw [hP] at hab
            cases hab
            rw [hne, if_neg (by decide)] at hcount
            simpa using hcount
      · have h3 := @length_keepEverySecond (inputPoints lon lat n) (by omega)
        have hge : 2 ≤ (keepEverySecond (inputPoints lon lat n)).length := by
          rw [h3]
          omega
        refine ⟨⟨fun h => by omega, ?_⟩, fun _ => by omega⟩
        rintro (h | ⟨h, _⟩) <;> omega

/-- C5 amended, at the sample input of five points. -/
theorem C5_count_one_iff_witness :
    (0 : Int) ≤ 5 ∧ ValidBuffers sampleLon sampleLat 5 sampleOut sampleOut ∧
    ((5 : Int) < 2147483647 →
      Returns (simplify_linestring (some sampleLon) (some sampleLat) 5 Double.one
        (some sampleOut) (some sampleOut))) ∧
    ∀ r, simplify_linestring (some sampleLon) (some sampleLat) 5 Double.one
        (some sampleOut) (some sampleOut) = .ok r →
      CountOneIff sampleLon sampleLat 5 r :=
  ⟨by decide, by decide,
    C5_count_one_iff sampleLon sampleLat sampleOut sampleOut 5 Double.one (by decide)
      (by decide)⟩

/-- C6: for every input with non-null buffers (holding `n` entries) and `n >= 0`
and every tolerance, the count `simplify_linestring` returns is 0 if and only if
`n == 0`. The call returns whenever `n` is below `INT_MAX`. -/
theorem C6_count_zero_iff (lon lat outLon outLat : List Double) (n : Int) (eps : Double)
    (hn : 0 ≤ n) (hv : ValidBuffers lon lat n outLon outLat) :
    (n < 2147483647 →
      Returns (simplify_linestring (some lon) (some lat) n eps (some outLon) (some outLat))) ∧
    ∀ r, simplify_linestring (some lon) (some lat) n eps (some outLon) (some outLat) = .ok r →
      (r.count = 0 ↔ n = 0) := by
  refine ⟨fun hlt => ?_, fun r hr => ?_⟩
  · obtain ⟨r, hr, _⟩ := returns_computes lon lat outLon outLat n eps hlt hv
    exact ⟨r, hr⟩
  · have hc := computes_of_ok hv hr
    have hlen : (inputPoints lon lat n).length = n.toNat := length_inputPoints_of_valid hv
    have hcount := hc.count_eq
    by_cases h1 : (inputPoints lon lat n).length ≤ 1
    · have := length_keepEverySecond_small h1
      omega
    · have := @length_keepEverySecond (inputPoints lon lat n) (by omega)
      have : 1 ≤ (keepEverySecond (inputPoints lon lat n)).length := by
        rw [this]
        omega
      omega

/-- C6 at an empty input: `n = 0`, five-entry buffers. -/
theorem C6_count_zero_iff_witness :
    (0 : Int) ≤ 0 ∧ ValidBuffers sampleLon sampleLat 0 sampleOut sampleOut ∧
    ((0 : Int) < 2147483647 →
      Returns (simplify_linestring (some sampleLon) (some sampleLat) 0 Double.one
        (some sampleOut) (some sampleOut))) ∧
    ∀ r, simplify_linestring (some sampleLon) (some sampleLat) 0 Double.one
        (some sampleOut) (some sampleOut) = .ok r → (r.count = 0 ↔ (0 : Int) = 0) :=
  ⟨by decide, by decide,
    C6_count_zero_iff sampleLon sampleLat sampleOut sampleOut 0 Double.one (by decide)
      (by decide)⟩

/-- C7: for every input with `n == 1` (non-null buffers holding one entry) and every
tolerance, `simplify_linestring` returns 1 and `output[0]` is `(lon[0], lat[0])`:
the output is the input, the very values. -/
theorem C7_single_point (lon lat outLon outLat : List Double) (eps : Double)
    (hv : ValidBuffers lon lat 1 outLon outLat) :
    OnePointResult lon lat outLon outLat eps := by
  obtain ⟨r, hr, hc⟩ := returns_computes lon lat outLon outLat 1 eps (by omega) hv
  have hlen : (inputPoints lon lat 1).length = 1 := length_inputPoints_of_valid hv
  have hK : keepEverySecond (inputPoints lon lat 1) = inputPoints lon lat 1 := by
    simp [keepEverySecond, hlen]
  have h0 : 0 < lon.length := by have := hv.1; omega
  have h1 : 0 < lat.length := by have := hv.2.1; omega
  have hP : inputPoints lon lat 1 = [(lon[0], lat[0])] := by
    obtain ⟨a, ha⟩ := List.length_eq_one.mp hlen
    have hget := @getElem?_inputPoints lon lat 1 0
    simp only [Nat.cast_one] at hget
    rw [ha] at hget ⊢
    simp [pointAt, List.getElem?_eq_getElem h0, List.getElem?_eq_getElem h1] at hget
    rw [hget]
  refine ⟨r, lon[0], lat[0], List.getElem?_eq_getElem h0, List.getElem?_eq_getElem h1, hr, ?_,
    ?_, ?_⟩
  · rw [hc.count_eq, hK, hlen]
    rfl
  · rw [hc.output_eq, hK, hP]
  · rw [hc.output_eq, hK]

/-- C7 at the single point (3, 4). -/
theorem C7_single_point_witness :
    ValidBuffers soloLon soloLat 1 soloOut soloOut ∧
    OnePointResult soloLon soloLat soloOut soloOut Double.zero :=
  ⟨by decide, C7_single_point soloLon soloLat soloOut soloOut Double.zero (by decide)⟩

theorem checked_overflow {v : Int} (h : 2147483647 < v) : checked v = .error .overflow := by
  unfold checked INT_MAX
  rw [if_neg (by omega)]

/-- With `n = INT_MAX` the loop never returns: its counter runs through the even
numbers up to `INT_MAX - 1`, every access along the way is inside the buffers, and
the increment `i += 2` at `i = INT_MAX - 1` leaves the `int` range. -/
theorem copyLoop_overflow (lon lat : List Double)
    (hlon : 2147483647 ≤ lon.length) (hlat : 2147483647 ≤ lat.length) :
    ∀ (fuel a b : Nat) (oLon oLat : List Double),
      a % 2 = 0 → a < 2147483647 → b ≤ a → (2147483648 - a) / 2 ≤ fuel →
      b + (2147483648 - a) / 2 ≤ oLon.length → b + (2147483648 - a) / 2 ≤ oLat.length →
      copyLoop lon lat 2147483647 fuel (a : Int) (b : Int) oLon oLat = .error .overflow := by
  intro fuel
  induction fuel with
  | zero =>
    intro a b oLon oLat _ ha _ hf _ _
    omega
  | succ fuel ih =>
    intro a b oLon oLat hev ha hb hf h1 h2
    have hlt : ((a : Int) < 2147483647) := by omega
    have e1 : ((b : Int) + 1) = ((b + 1 : Nat) : Int) := by push_cast; rfl
    have e2 : ((a : Int) + 2) = ((a + 2 : Nat) : Int) := by push_cast; rfl
    simp only [copyLoop, hlt, if_true]
    rw [load_ok lon a (by omega), ok_bind, store_ok oLon b _ (by omega), ok_bind,
      load_ok lat a (by omega), ok_bind, store_ok oLat b _ (by omega), ok_bind,
      checked_ok _ (by omega) (by omega), ok_bind]
    by_cases hlast : a + 2 ≤ 2147483647
    · rw [checked_ok _ (by omega) (by omega), ok_bind, e1, e2]
      exact ih (a + 2) (b + 1) _ _ (by omega) (by omega) (by omega) (by omega)
        (by simp only [List.length_set]; omega) (by simp only [List.length_set]; omega)
    · rw [checked_overflow (by omega), error_bind]

theorem simplify_linestring_overflow (lon lat outLon outLat : List Double) (eps : Double)
    (hlon : 2147483647 ≤ lon.length) (hlat : 2147483647 ≤ lat.length)
    (holon : 2147483647 ≤ outLon.length) (holat : 2147483647 ≤ outLat.length) :
    simplify_linestring (some lon) (some lat) 2147483647 eps (some outLon) (some outLat)
      = .error .overflow := by
  have h := copyLoop_overflow lon lat hlon hlat 2147483647 0 0 outLon outLat (by omega)
    (by omega) (by omega) (by omega) (by omega) (by omega)
  have hn0 : ¬ ((2147483647 : Int) ≤ 0) := by omega
  have hn1 : ¬ ((2147483647 : Int) = 1) := by omega
  have ht : (2147483647 : Int).toNat = 2147483647 := rfl
  simp only [Nat.cast_zero] at h
  simp only [simplify_linestring, hn0, hn1, if_false, ht, h, error_bind]

/-- Below `INT_MAX` every access is inside the buffers, whatever the coordinates
(NaN included, for which the comparison of line 35 holds of a value against
itself): on buffers of exactly or more than `n` entries the call returns, and the
count it returns is at most `n`. -/
theorem simplify_linestring_in_bounds (lon lat outLon outLat : List Double) (n : Int)
    (eps : Double) (hn : 1 ≤ n) (hlt : n < 2147483647)
    (hv : ValidBuffers lon lat n outLon outLat) :
    ∃ r, simplify_linestring (some lon) (some lat) n eps (some outLon) (some outLat) = .ok r ∧
      1 ≤ r.count ∧ r.count ≤ n := by
  obtain ⟨r, hr, hc⟩ := returns_computes lon lat outLon outLat n eps hlt hv
  have hlen : (inputPoints lon lat n).length = n.toNat := length_inputPoints_of_valid hv
  have hle := length_keepEverySecond_le (inputPoints lon lat n)
  have hcount := hc.count_eq
  refine ⟨r, hr, ?_, by omega⟩
  by_cases h1 : (inputPoints lon lat n).length ≤ 1
  · have := length_keepEverySecond_small h1
    omega
  · have := @length_keepEverySecond (inputPoints lon lat n) (by omega)
    have : 1 ≤ (keepEverySecond (inputPoints lon lat n)).length := by
      rw [this]
      omega
    omega

/-- C8, the failing input: with `n = INT_MAX` and four buffers of `INT_MAX` entries
the call does not return a count: the loop counter `i` reaches `INT_MAX - 1` and
`i += 2` overflows. -/
theorem C8_counter_overflows :
    simplify_linestring (some hugeBuffer) (some hugeBuffer) 2147483647 Double.zero
      (some hugeBuffer) (some hugeBuffer) = .error .overflow := by
  have hlen : 2147483647 ≤ hugeBuffer.length := by
    unfold hugeBuffer
    rw [List.length_replicate]
  exact simplify_linestring_overflow hugeBuffer hugeBuffer hugeBuffer hugeBuffer Double.zero
    hlen hlen hlen hlen

theorem mem_of_mem_keepEverySecond {P : List Point} {p : Point}
    (h : p ∈ keepEverySecond P) : p ∈ P := by
  by_cases h1 : P.length ≤ 1
  · simpa [keepEverySecond, h1] using h
  · obtain ⟨j, hj⟩ := List.getElem?_of_mem h
    rw [getElem?_keepEverySecond (by omega)] at hj
    split at hj
    · exact List.getElem?_mem hj
    · split at hj
      · exact List.getElem?_mem hj
      · cases hj

/-- A polyline of three or more finite points loses at least one point. -/
theorem length_keepEverySecond_lt {Q : List Point} (h3 : 3 ≤ Q.length)
    (hfin : ∀ p ∈ Q, Point.isFinite p = true) : (keepEverySecond Q).length < Q.length := by
  rw [length_keepEverySecond (by omega)]
  by_cases hodd : Q.length % 2 = 1
  · have hidx : 2 * ((Q.length + 1) / 2 - 1) = Q.length - 1 := by omega
    have hl : Q[Q.length - 1]? = some Q[Q.length - 1] := List.getElem?_eq_getElem (by omega)
    have hd := @lastPointDiffers_eq Q _ _ (by rw [hidx]; exact hl) hl
    rw [Point.ne_irrefl (hfin _ (List.getElem_mem _))] at hd
    rw [hd]
    simp only [Bool.false_eq_true, if_false]
    omega
  · split <;> omega

/-- On finite points, applying `keepEverySecond` twice gives the same as applying it
once exactly when the first result has at most one point, or two that differ. -/
theorem keepEverySecond_idempotent_iff (P : List Point)
    (hfin : ∀ p ∈ P, Point.isFinite p = true) :
    keepEverySecond (keepEverySecond P) = keepEverySecond P ↔
      (keepEverySecond P).length ≤ 1 ∨
      ((keepEverySecond P).length = 2 ∧
        ∃ a b, keepEverySecond P = [a, b] ∧ Point.ne a b = true) := by
  have hfinK : ∀ p ∈ keepEverySecond P, Point.isFinite p = true :=
    fun p hp => hfin p (mem_of_mem_keepEverySecond hp)
  constructor
  · intro h
    by_cases h1 : (keepEverySecond P).length ≤ 1
    · exact Or.inl h1
    · right
      by_cases h2 : (keepEverySecond P).length = 2
      · obtain ⟨a, b, hab⟩ := List.length_eq_two.mp h2
        refine ⟨h2, a, b, hab, ?_⟩
        rw [hab, keepEverySecond_pair] at h
        cases hne : Point.ne a b
        · rw [hne, if_neg (by decide)] at h
          simp at h
        · rfl
      · have := @length_keepEverySecond_lt (keepEverySecond P) (by omega) hfinK
        rw [h] at this
        omega
  · rintro (h | ⟨_, a, b, hab, hne⟩)
    · exact keepEverySecond_small h
    · rw [hab, keepEverySecond_pair, hne, if_pos rfl]

/-- C9, refuted: on the five points (0,0), (1,1), (2,0), (3,1), (4,0) with tolerance
1 the first call returns the three points (0,0), (2,0), (4,0), and the call on that
output returns the two points (0,0), (4,0). -/
theorem C9_second_call_drops_more :
    ∃ r1 r2, Double.le Double.zero Double.one = true ∧
      simplify_linestring (some sampleLon) (some sampleLat) 5 Double.one
        (some sampleOut) (some sampleOut) = .ok r1 ∧
      simplifyAgain r1 Double.one sampleOut sampleOut = .ok r2 ∧
      r1.output = [(Double.zero, Double.zero), (Double.two, Double.zero),
        (Double.four, Double.zero)] ∧
      r2.output = [(Double.zero, Double.zero), (Double.four, Double.zero)] ∧
      r2.output ≠ r1.output :=
  ⟨_, _, by decide, rfl, rfl, rfl, rfl, by decide⟩

/-- C9, amended: for every polyline with finite coordinates (non-null buffers
holding `n` entries, `n >= 0`) and every tolerance, applying `simplify_linestring`
to its own output with the same tolerance gives that output again if and only if
the output has at most one point, or two points that differ; an output of three or
more points is shortened again. The first call returns whenever `n` is below
`INT_MAX`, and then so does the second. -/
theorem C9_idempotent_iff (lon lat outLon outLat out2Lon out2Lat : List Double) (n : Int)
    (eps : Double) (hn : 0 ≤ n) (hv : ValidBuffers lon lat n outLon outLat)
    (hfin : FiniteCoords lon lat n) (hv2 : n ≤ out2Lon.length ∧ n ≤ out2Lat.length) :
    (n < 2147483647 →
      Returns (simplify_linestring (some lon) (some lat) n eps (some outLon) (some outLat))) ∧
    ∀ r, simplify_linestring (some lon) (some lat) n eps (some outLon) (some outLat) = .ok r →
      IdempotentIff r eps out2Lon out2Lat := by
  refine ⟨fun hlt => ?_, fun r hr => ?_⟩
  · obtain ⟨r, hr, _⟩ := returns_computes lon lat outLon outLat n eps hlt hv
    exact ⟨r, hr⟩
  · have hc := computes_of_ok hv hr
    have hlt := lt_of_returns hr
    have hlen : (inputPoints lon lat n).length = n.toNat := length_inputPoints_of_valid hv
    have hle := length_keepEverySecond_le (inputPoints lon lat n)
    obtain ⟨oLon, oLat, hoLon, hoLat, hl1, hl2, _⟩ := hc.buffers
    have hcount := hc.count_eq
    have hin : inputPoints oLon oLat r.count = r.output := by
      unfold inputPoints Result.output
      rw [hoLon, hoLat]
      rfl
    have hv3 : ValidBuffers oLon oLat r.count out2Lon out2Lat := by
      have := hv.2.2.1
      have := hv.2.2.2
      exact ⟨by omega, by omega, by omega, by omega⟩
    obtain ⟨r2, hr2, hc2⟩ := returns_computes oLon oLat out2Lon out2Lat r.count eps (by omega) hv3
    refine ⟨r2, by unfold simplifyAgain; rw [hoLon, hoLat]; exact hr2, ?_⟩
    rw [hc2.output_eq, hin, hc.output_eq, keepEverySecond_idempotent_iff _ hfin, hcount]
    constructor
    · rintro (h | ⟨h, hab⟩)
      · exact Or.inl (by omega)
      · exact Or.inr ⟨by omega, hab⟩
    · rintro (h | ⟨h, hab⟩)
      · exact Or.inl (by omega)
      · exact Or.inr ⟨by omega, hab⟩

/-- C9 amended, at the sample input of five points. -/
theorem C9_idempotent_iff_witness :
    (0 : Int) ≤ 5 ∧ ValidBuffers sampleLon sampleLat 5 sampleOut sampleOut ∧
    FiniteCoords sampleLon sampleLat 5 ∧
    ((5 : Int) ≤ sampleOut.length ∧ (5 : Int) ≤ sampleOut.length) ∧
    ((5 : Int) < 2147483647 →
      Returns (simplify_linestring (some sampleLon) (some sampleLat) 5 Double.one
        (some sampleOut) (some sampleOut))) ∧
    ∀ r, simplify_linestring (some sampleLon) (some sampleLat) 5 Double.one
        (some sampleOut) (some sampleOut) = .ok r →
      IdempotentIff r Double.one sampleOut sampleOut :=
  ⟨by decide, by decide, by decide, by decide,
    C9_idempotent_iff sampleLon sampleLat sampleOut sampleOut sampleOut sampleOut 5 Double.one
      (by decide) (by decide) (by decide) (by decide)⟩

/-- C10: monotonicity. For every polyline and tolerances `0 <= eps1 < eps2`, the
number of points `simplify_linestring` returns for `eps2` is at most the number it
returns for `eps1`: whenever the call with `eps1` returns, the call with `eps2`
returns a count that is not larger. -/
theorem C10_count_monotone (lon lat outLon outLat : Option (List Double)) (n : Int)
    (eps1 eps2 : Double) (h1 : Double.le Double.zero eps1 = true)
    (h2 : Double.lt eps1 eps2 = true) :
    CountMonotone lon lat n eps1 eps2 outLon outLat := by
  intro r1 hr1
  exact ⟨r1, hr1, Int.le_refl _⟩

/-- C10 at the sample input with the tolerances 1 and 2. -/
theorem C10_count_monotone_witness :
    Double.le Double.zero Double.one = true ∧ Double.lt Double.one Double.two = true ∧
    CountMonotone (some sampleLon) (some sampleLat) 5 Double.one Double.two
      (some sampleOut) (some sampleOut) ∧
    Returns (simplify_linestring (some sampleLon) (some sampleLat) 5 Double.one
      (some sampleOut) (some sampleOut)) :=
  ⟨by decide, by decide,
    C10_count_monotone (some sampleLon) (some sampleLat) (some sampleOut) (some sampleOut) 5
      Double.one Double.two (by decide) (by decide),
    ⟨_, rfl⟩⟩

/-- C11, refuted: with the tolerance -1 on the polyline (0,0), (1,1), (2,0) the call
returns the count 2, not an empty result, and the output buffers are written. -/
theorem C11_negative_tolerance_accepted :
    ∃ r, Double.lt Double.negOne Double.zero = true ∧
      simplify_linestring (some bumpLon) (some bumpLat) 3 Double.negOne
        (some bumpOut) (some bumpOut) = .ok r ∧
      r.count = 2 ∧ r.outLon ≠ some bumpOut ∧ r.outLat ≠ some bumpOut :=
  ⟨_, by decide, rfl, rfl, by decide, by decide⟩

/-- C11, amended: for every input with `toleranceMeters < 0` (non-null buffers
holding `n` entries, `n >= 1`) `simplify_linestring` signals nothing: it returns
what it returns for the tolerance 0, a count of at least 1, and writes the output,
whose first point is the first input point. The call returns whenever `n` is below
`INT_MAX`. -/
theorem C11_negative_tolerance_ignored (lon lat outLon outLat : List Double) (n : Int)
    (eps : Double) (hneg : Double.lt eps Double.zero = true) (hn : 1 ≤ n)
    (hv : ValidBuffers lon lat n outLon outLat) :
    NegativeToleranceIgnored lon lat n eps outLon outLat := by
  refine ⟨fun hlt => ?_, fun r hr => ?_⟩
  · obtain ⟨r, hr, _⟩ := returns_computes lon lat outLon outLat n eps hlt hv
    exact ⟨r, hr⟩
  · have hc := computes_of_ok hv hr
    have hlen : (inputPoints lon lat n).length = n.toNat := length_inputPoints_of_valid hv
    have h0 : (inputPoints lon lat n)[0]? = some (inputPoints lon lat n)[0] :=
      List.getElem?_eq_getElem (by omega)
    have hK0 : (keepEverySecond (inputPoints lon lat n))[0]? = (inputPoints lon lat n)[0]? := by
      by_cases h1 : (inputPoints lon lat n).length ≤ 1
      · rw [keepEverySecond_small h1]
      · rw [getElem?_keepEverySecond (by omega), if_pos (by omega)]
    have hcount := hc.count_eq
    refine ⟨hr, ?_, _, h0, ?_⟩
    · have : 1 ≤ (keepEverySecond (inputPoints lon lat n)).length := by
        by_cases h1 : (inputPoints lon lat n).length ≤ 1
        · rw [length_keepEverySecond_small h1]; omega
        · rw [length_keepEverySecond (by omega)]; omega
      omega
    · rw [hc.output_eq, hK0]
      exact h0

/-- C11 amended, at the polyline (0,0), (1,1), (2,0) with the tolerance -1. -/
theorem C11_negative_tolerance_ignored_witness :
    Double.lt Double.negOne Double.zero = true ∧ (1 : Int) ≤ 3 ∧
    ValidBuffers bumpLon bumpLat 3 bumpOut bumpOut ∧
    NegativeToleranceIgnored bumpLon bumpLat 3 Double.negOne bumpOut bumpOut :=
  ⟨by decide, by decide, by decide,
    C11_negative_tolerance_ignored bumpLon bumpLat bumpOut bumpOut 3 Double.negOne
      (by decide) (by decide) (by decide)⟩

/-- C12, refuted: on (0,0), (1,0.0001), (2,0) with the tolerance 1 the call returns
2, not 3, and the output is (0,0), (2,0): the middle point is dropped. -/
theorem C12_middle_point_dropped :
    ∃ r, simplify_linestring (some bumpLon) (some wiggleLat) 3 Double.one
        (some bumpOut) (some bumpOut) = .ok r ∧
      r.count = 2 ∧ r.count ≠ 3 ∧
      r.output ≠ [(Double.zero, Double.zero), (Double.one, Double.tenThousandth),
        (Double.two, Double.zero)] :=
  ⟨_, rfl, rfl, by decide, by decide⟩

/-- C12, amended: for P = (0,0), (1,0.0001), (2,0) and the tolerance 1 m, as for
every other tolerance, `simplify_linestring` returns 2 and the output is
(0,0), (2,0), whatever output buffers of at least three entries it is given. -/
theorem C12_returns_endpoints (eps : Double) (outLon outLat : List Double)
    (hv : ValidBuffers bumpLon wiggleLat 3 outLon outLat) :
    MiddleDropped eps outLon outLat := by
  obtain ⟨r, hr, hc⟩ := returns_computes bumpLon wiggleLat outLon outLat 3 eps (by omega) hv
  have hK : keepEverySecond (inputPoints bumpLon wiggleLat 3)
      = [(Double.zero, Double.zero), (Double.two, Double.zero)] := by decide
  refine ⟨r, hr, ?_, ?_⟩
  · rw [hc.count_eq, hK]
    rfl
  · rw [hc.output_eq, hK]

/-- C12 amended, at the tolerance 1 with three-entry output buffers. -/
theorem C12_returns_endpoints_witness :
    ValidBuffers bumpLon wiggleLat 3 bumpOut bumpOut ∧
    MiddleDropped Double.one bumpOut bumpOut :=
  ⟨by decide, C12_returns_endpoints Double.one bumpOut bumpOut (by decide)⟩

theorem lastPointDiffers_odd {P : List Point} (h2 : 2 ≤ P.length) (hodd : P.length % 2 = 1)
    (hfin : ∀ p ∈ P, Point.isFinite p = true) : lastPointDiffers P = false := by
  have hidx : 2 * ((P.length + 1) / 2 - 1) = P.length - 1 := by omega
  have hl : P[P.length - 1]? = some P[P.length - 1] := List.getElem?_eq_getElem (by omega)
  have hd := @lastPointDiffers_eq P _ _ (by rw [hidx]; exact hl) hl
  rw [Point.ne_irrefl (hfin _ (List.getElem_mem _))] at hd
  exact hd

/-- Of `m >= 2` copies of a finite point, every second one is kept and the last one
is never appended. -/
theorem keepEverySecond_replicate (m : Nat) (p : Point) (h2 : 2 ≤ m)
    (hp : Point.isFinite p = true) :
    keepEverySecond (List.replicate m p) = List.replicate ((m + 1) / 2) p := by
  have hlen : (List.replicate m p).length = m := List.length_replicate _ _
  have he : (List.replicate m p)[2 * (((List.replicate m p).length + 1) / 2 - 1)]? = some p := by
    rw [List.getElem?_replicate, if_pos (by rw [hlen]; omega)]
  have hl : (List.replicate m p)[(List.replicate m p).length - 1]? = some p := by
    rw [List.getElem?_replicate, if_pos (by rw [hlen]; omega)]
  have hd : lastPointDiffers (List.replicate m p) = false := by
    rw [lastPointDiffers_eq he hl]
    exact Point.ne_irrefl hp
  apply List.ext_getElem?
  intro j
  rw [getElem?_keepEverySecond (by rw [hlen]; exact h2), hd, hlen]
  simp only [List.getElem?_replicate]
  by_cases hj : j < (m + 1) / 2
  · rw [if_pos hj, if_pos hj, if_pos (by omega)]
  · rw [if_neg hj, if_neg hj]
    simp

/-- C13, refuted: on five copies of the point (5, 5) the call returns 3 points, not
2: the output is (5,5), (5,5), (5,5). -/
theorem C13_five_same_returns_three :
    ∃ r, simplify_linestring (some fiveSame) (some fiveSame) 5 Double.one
        (some sampleOut) (some sampleOut) = .ok r ∧
      AllSame fiveSame fiveSame 5 (Double.five, Double.five) ∧
      r.count = 3 ∧ r.output ≠ [(Double.five, Double.five), (Double.five, Double.five)] :=
  ⟨_, rfl, by decide, rfl, by decide⟩

/-- C13, amended: for every polyline of `n >= 3` copies of one finite point `p`
(non-null buffers holding `n` entries) and every tolerance, `simplify_linestring`
returns `(n + 1) / 2` points, each of them `p`: the output is `[p, p]`, every middle
point dropped, for `n = 3` and `n = 4`, and longer from `n = 5` on. The call returns
whenever `n` is below `INT_MAX`. -/
theorem C13_same_points_halved (lon lat outLon outLat : List Double) (n : Int) (eps : Double)
    (p : Point) (hn : 3 ≤ n) (hv : ValidBuffers lon lat n outLon outLat)
    (hp : Point.isFinite p = true) (hall : AllSame lon lat n p) :
    (n < 2147483647 →
      Returns (simplify_linestring (some lon) (some lat) n eps (some outLon) (some outLat))) ∧
    ∀ r, simplify_linestring (some lon) (some lat) n eps (some outLon) (some outLat) = .ok r →
      HalfOfSame n p r := by
  refine ⟨fun hlt => ?_, fun r hr => ?_⟩
  · obtain ⟨r, hr, _⟩ := returns_computes lon lat outLon outLat n eps hlt hv
    exact ⟨r, hr⟩
  · have hc := computes_of_ok hv hr
    unfold AllSame at hall
    have hK := keepEverySecond_replicate n.toNat p (by omega) hp
    rw [← hall] at hK
    have hcount := hc.count_eq
    rw [hK, List.length_replicate] at hcount
    refine ⟨by omega, by rw [hc.output_eq, hK], fun h4 => ?_⟩
    rw [hc.output_eq, hK]
    have : (n.toNat + 1) / 2 = 2 := by omega
    rw [this]
    rfl

/-- C13 amended, at five copies of the point (5, 5). -/
theorem C13_same_points_halved_witness :
    (3 : Int) ≤ 5 ∧ ValidBuffers fiveSame fiveSame 5 sampleOut sampleOut ∧
    Point.isFinite (Double.five, Double.five) = true ∧
    AllSame fiveSame fiveSame 5 (Double.five, Double.five) ∧
    ((5 : Int) < 2147483647 →
      Returns (simplify_linestring (some fiveSame) (some fiveSame) 5 Double.one
        (some sampleOut) (some sampleOut))) ∧
    ∀ r, simplify_linestring (some fiveSame) (some fiveSame) 5 Double.one
        (some sampleOut) (some sampleOut) = .ok r →
      HalfOfSame 5 (Double.five, Double.five) r :=
  ⟨by decide, by decide, by decide, by decide,
    C13_same_points_halved fiveSame fiveSame sampleOut sampleOut 5 Double.one
      (Double.five, Double.five) (by decide) (by decide) (by decide) (by decide)⟩

/-- C14: for every input with `n >= 2`, non-null buffers (holding `n` entries) and
finite coordinates, the output of `simplify_linestring` is exactly the input points
at the even indices 0, 2, 4, ... below `n`, in order, followed by the last input
point if and only if that point differs, in longitude or latitude, from the last
even-indexed point; the returned count is the number of points so written. The call
returns whenever `n` is below `INT_MAX`. -/
theorem C14_every_second_then_last (lon lat outLon outLat : List Double) (n : Int)
    (eps : Double) (hn : 2 ≤ n) (hv : ValidBuffers lon lat n outLon outLat)
    (hfin : FiniteCoords lon lat n) :
    (n < 2147483647 →
      Returns (simplify_linestring (some lon) (some lat) n eps (some outLon) (some outLat))) ∧
    ∀ r, simplify_linestring (some lon) (some lat) n eps (some outLon) (some outLat) = .ok r →
      EverySecondThenLast lon lat n r := by
  refine ⟨fun hlt => ?_, fun r hr => ?_⟩
  · obtain ⟨r, hr, _⟩ := returns_computes lon lat outLon outLat n eps hlt hv
    exact ⟨r, hr⟩
  · have hc := computes_of_ok hv hr
    have hlen : (inputPoints lon lat n).length = n.toNat := length_inputPoints_of_valid hv
    have h2 : 2 ≤ (inputPoints lon lat n).length := by omega
    have he : (inputPoints lon lat n)[2 * ((n.toNat + 1) / 2 - 1)]?
        = some (inputPoints lon lat n)[2 * ((n.toNat + 1) / 2 - 1)] :=
      List.getElem?_eq_getElem (by omega)
    have hl : (inputPoints lon lat n)[n.toNat - 1]? = some (inputPoints lon lat n)[n.toNat - 1] :=
      List.getElem?_eq_getElem (by omega)
    have hd := @lastPointDiffers_eq (inputPoints lon lat n) _ _
      (by rw [hlen]; exact he) (by rw [hlen]; exact hl)
    have hKlen := @length_keepEverySecond (inputPoints lon lat n) h2
    have hKget := @getElem?_keepEverySecond (inputPoints lon lat n) h2
    rw [hlen] at hKlen hKget
    refine ⟨_, _, he, hl, ?_, ?_, ?_, ?_⟩
    · intro j hj
      rw [hc.output_eq, hKget, if_pos hj]
    · intro hne
      rw [← hd] at hne
      rw [hc.output_eq]
      rw [hne] at hKlen hKget
      refine ⟨by simpa using hKlen, ?_⟩
      rw [hKget, if_neg (by omega), if_pos ⟨rfl, rfl⟩]
      exact hl
    · intro hne
      rw [← hd] at hne
      rw [hc.output_eq, hKlen, hne]
      simp
    · rw [hc.output_eq]
      exact hc.count_eq

/-- C14 at the sample input: five finite points, five-entry output buffers. -/
theorem C14_every_second_then_last_witness :
    (2 : Int) ≤ 5 ∧ ValidBuffers sampleLon sampleLat 5 sampleOut sampleOut ∧
    FiniteCoords sampleLon sampleLat 5 ∧
    ((5 : Int) < 2147483647 →
      Returns (simplify_linestring (some sampleLon) (some sampleLat) 5 Double.one
        (some sampleOut) (some sampleOut))) ∧
    ∀ r, simplify_linestring (some sampleLon) (some sampleLat) 5 Double.one
        (some sampleOut) (some sampleOut) = .ok r →
      EverySecondThenLast sampleLon sampleLat 5 r :=
  ⟨by decide, by decide, by decide,
    C14_every_second_then_last sampleLon sampleLat sampleOut sampleOut 5 Double.one
      (by decide) (by decide) (by decide)⟩

/-- C15, refuted: the call with a null `lon` and `n = 1` and the call on a valid
empty input (`n = 0`) with the same output buffers give the same result, the count 0
with the buffers untouched: the caller cannot tell them apart. -/
theorem C15_null_same_as_empty :
    simplify_linestring none (some soloLat) 1 Double.one (some soloOut) (some soloOut)
      = simplify_linestring (some soloLon) (some soloLat) 0 Double.one
          (some soloOut) (some soloOut) :=
  rfl

/-- C15, amended: when a required buffer (`lon`, `lat`, `outLon` or `outLat`) is
null, `simplify_linestring` returns 0 and writes nothing, whatever `n` is, which is
also what it does for a valid empty input (`n == 0`): no InvalidInput is reported
and the two results are the same. -/
theorem C15_null_returns_zero (lon lat outLon outLat : Option (List Double)) (n : Int)
    (eps : Double) (h : lon = none ∨ lat = none ∨ outLon = none ∨ outLat = none) :
    NullLikeEmpty lon lat n eps outLon outLat := by
  refine ⟨?_, fun a b c d => by simp [simplify_linestring]⟩
  cases lon <;> cases lat <;> cases outLon <;> cases outLat <;>
    first | rfl | (exfalso; simp at h)

/-- C15 amended, at a null `outLat` with `n = 1`. -/
theorem C15_null_returns_zero_witness :
    ((some soloLon = none) ∨ (some soloLat = none) ∨ (some soloOut = none) ∨
      ((none : Option (List Double)) = none)) ∧
    NullLikeEmpty (some soloLon) (some soloLat) 1 Double.one (some soloOut) none :=
  ⟨Or.inr (Or.inr (Or.inr rfl)),
    C15_null_returns_zero (some soloLon) (some soloLat) (some soloOut) none 1 Double.one
      (Or.inr (Or.inr (Or.inr rfl)))⟩

/-- C16: the result of `simplify_linestring` does not depend on the tolerance: for
every input (buffers null or not, any `n`) and every two tolerances, of any sign,
the two calls are the same: they return alike, with the same count and the same
output buffers, or fault alike. -/
theorem C16_tolerance_independent (lon lat outLon outLat : Option (List Double)) (n : Int)
    (eps1 eps2 : Double) :
    simplify_linestring lon lat n eps1 outLon outLat
      = simplify_linestring lon lat n eps2 outLon outLat :=
  rfl

/-- C17: for every input with `n >= 2`, non-null buffers (holding `n` entries) and
finite coordinates, the count `simplify_linestring` returns is `floor(n/2) + 1`,
except when `n` is even and the last two input points are equal, in longitude and
in latitude, in which case it is `n/2`. The call returns whenever `n` is below
`INT_MAX`. -/
theorem C17_count_formula (lon lat outLon outLat : List Double) (n : Int) (eps : Double)
    (hn : 2 ≤ n) (hv : ValidBuffers lon lat n outLon outLat) (hfin : FiniteCoords lon lat n) :
    (n < 2147483647 →
      Returns (simplify_linestring (some lon) (some lat) n eps (some outLon) (some outLat))) ∧
    ∀ r, simplify_linestring (some lon) (some lat) n eps (some outLon) (some outLat) = .ok r →
      CountFormula lon lat n r := by
  refine ⟨fun hlt => ?_, fun r hr => ?_⟩
  · obtain ⟨r, hr, _⟩ := returns_computes lon lat outLon outLat n eps hlt hv
    exact ⟨r, hr⟩
  · have hc := computes_of_ok hv hr
    have hlen : (inputPoints lon lat n).length = n.toNat := length_inputPoints_of_valid hv
    have h2 : 2 ≤ (inputPoints lon lat n).length := by omega
    have ha : (inputPoints lon lat n)[n.toNat - 2]? = some (inputPoints lon lat n)[n.toNat - 2] :=
      List.getElem?_eq_getElem (by omega)
    have hb : (inputPoints lon lat n)[n.toNat - 1]? = some (inputPoints lon lat n)[n.toNat - 1] :=
      List.getElem?_eq_getElem (by omega)
    have hKlen := @length_keepEverySecond (inputPoints lon lat n) h2
    have hcount := hc.count_eq
    rw [hKlen, hlen] at hcount
    refine ⟨_, _, ha, hb, ?_, ?_⟩
    · rintro ⟨hev, heq⟩
      have hd := @lastPointDiffers_even (inputPoints lon lat n) h2 (by omega) _ _
        (by rw [hlen]; exact ha) (by rw [hlen]; exact hb)
      rw [Point.ne_eq_not_eq, heq] at hd
      rw [hd] at hcount
      simp only [Bool.not_true, Bool.false_eq_true, if_false, Nat.add_zero] at hcount
      omega
    · intro hnot
      by_cases hev : n % 2 = 0
      · have hd := @lastPointDiffers_even (inputPoints lon lat n) h2 (by omega) _ _
          (by rw [hlen]; exact ha) (by rw [hlen]; exact hb)
        have heq : Point.eq (inputPoints lon lat n)[n.toNat - 2]
            (inputPoints lon lat n)[n.toNat - 1] = false := by
          cases h : Point.eq (inputPoints lon lat n)[n.toNat - 2]
            (inputPoints lon lat n)[n.toNat - 1]
          · rfl
          · exact absurd ⟨hev, h⟩ hnot
        rw [Point.ne_eq_not_eq, heq] at hd
        rw [hd] at hcount
        simp only [Bool.not_false, if_true] at hcount
        omega
      · have hd := lastPointDiffers_odd h2 (by omega) hfin
        rw [hd] at hcount
        simp only [Bool.false_eq_true, if_false, Nat.add_zero] at hcount
        omega

/-- C17 at the sample input: five finite points, five-entry output buffers. -/
theorem C17_count_formula_witness :
    (2 : Int) ≤ 5 ∧ ValidBuffers sampleLon sampleLat 5 sampleOut sampleOut ∧
    FiniteCoords sampleLon sampleLat 5 ∧
    ((5 : Int) < 2147483647 →
      Returns (simplify_linestring (some sampleLon) (some sampleLat) 5 Double.one
        (some sampleOut) (some sampleOut))) ∧
    ∀ r, simplify_linestring (some sampleLon) (some sampleLat) 5 Double.one
        (some sampleOut) (some sampleOut) = .ok r →
      CountFormula sampleLon sampleLat 5 r :=
  ⟨by decide, by decide, by decide,
    C17_count_formula sampleLon sampleLat sampleOut sampleOut 5 Double.one
      (by decide) (by decide) (by decide)⟩

theorem store_eq_ok {buf res : List Double} {i : Int} {v : Double}
    (h : store buf i v = .ok res) : res = buf.set i.toNat v ∧ 0 ≤ i := by
  unfold store at h
  split at h
  · rename_i hi
    cases h
    exact ⟨rfl, hi.1⟩
  · cases h

/-- Whatever the loop returns: its counter `out` has not decreased, it has grown when
the loop was entered with `i < n`, and the output buffers are as before at every
index below the initial `out` and from the final `out` on. -/
theorem copyLoop_frame (lon lat : List Double) (n : Int) :
    ∀ (fuel : Nat) (i out : Int) (oLon oLat : List Double)
      (r : Int × List Double × List Double),
      0 ≤ out → copyLoop lon lat n fuel i out oLon oLat = .ok r →
      out ≤ r.1 ∧ (i < n → out + 1 ≤ r.1) ∧
      ∀ j : Nat, (j : Int) < out ∨ r.1 ≤ (j : Int) →
        r.2.1[j]? = oLon[j]? ∧ r.2.2[j]? = oLat[j]? := by
  intro fuel
  induction fuel with
  | zero =>
    intro i out oLon oLat r ho h
    unfold copyLoop at h
    split at h
    · cases h
    · rename_i hi
      cases h
      exact ⟨Int.le_refl _, fun hlt => absurd hlt hi, fun _ _ => ⟨rfl, rfl⟩⟩
  | succ fuel ih =>
    intro i out oLon oLat r ho h
    unfold copyLoop at h
    split at h
    · obtain ⟨x, _, h⟩ := bind_eq_ok h
      obtain ⟨oLon1, hs1, h⟩ := bind_eq_ok h
      obtain ⟨y, _, h⟩ := bind_eq_ok h
      obtain ⟨oLat1, hs2, h⟩ := bind_eq_ok h
      obtain ⟨out1, ho1, h⟩ := bind_eq_ok h
      obtain ⟨i1, _, h⟩ := bind_eq_ok h
      obtain ⟨rfl, _, _⟩ := checked_eq_ok ho1
      obtain ⟨rfl, _⟩ := store_eq_ok hs1
      obtain ⟨rfl, _⟩ := store_eq_ok hs2
      obtain ⟨hle, _, hframe⟩ := ih i1 (out + 1) _ _ r (by omega) h
      refine ⟨by omega, fun _ => hle, fun j hj => ?_⟩
      obtain ⟨h1, h2⟩ := hframe j (by omega)
      have hne : out.toNat ≠ j := by omega
      rw [h1, h2, List.getElem?_set, List.getElem?_set, if_neg hne, if_neg hne]
      exact ⟨rfl, rfl⟩
    · rename_i hi
      cases h
      exact ⟨Int.le_refl _, fun hlt => absurd hlt hi, fun _ _ => ⟨rfl, rfl⟩⟩

/-- C18: frame of the output buffers. For every call of `simplify_linestring`
(buffers null or not, of any size, any `n`, any tolerance) that returns a count `k`,
the entries of `outLon` and `outLat` at the indices `>= k` are as before the call;
when it returns 0 (a null buffer or `n <= 0`) the buffers are as before the call
altogether. -/
theorem C18_frame_kept (lon lat outLon outLat : Option (List Double)) (n : Int)
    (eps : Double) (r : Result)
    (h : simplify_linestring lon lat n eps outLon outLat = .ok r) :
    FrameKept outLon outLat r := by
  have hnull : r = ⟨0, outLon, outLat⟩ → FrameKept outLon outLat r := by
    rintro rfl
    exact ⟨fun _ _ => ⟨rfl, rfl⟩, fun _ => ⟨rfl, rfl⟩⟩
  cases lon with
  | none => exact hnull (by simp only [simplify_linestring] at h; cases h; rfl)
  | some lon =>
  cases lat with
  | none => exact hnull (by simp only [simplify_linestring] at h; cases h; rfl)
  | some lat =>
  cases outLon with
  | none => exact hnull (by simp only [simplify_linestring] at h; cases h; rfl)
  | some outLon =>
  cases outLat with
  | none => exact hnull (by simp only [simplify_linestring] at h; cases h; rfl)
  | some outLat =>
  by_cases h0 : n ≤ 0
  · exact hnull (by simp only [simplify_linestring, h0, if_true] at h; cases h; rfl)
  · by_cases h1 : n = 1
    · simp only [simplify_linestring, h0, h1, if_false, if_true] at h
      obtain ⟨x, _, h⟩ := bind_eq_ok h
      obtain ⟨oLon1, hs1, h⟩ := bind_eq_ok h
      obtain ⟨y, _, h⟩ := bind_eq_ok h
      obtain ⟨oLat1, hs2, h⟩ := bind_eq_ok h
      obtain ⟨rfl, _⟩ := store_eq_ok hs1
      obtain ⟨rfl, _⟩ := store_eq_ok hs2
      cases h
      refine ⟨fun j hj => ?_, fun hk => by simp at hk⟩
      have hne : (0 : Int).toNat ≠ j := by
        simp only [Int.toNat_zero]
        simp only at hj
        omega
      simp only [Option.getD_some]
      rw [List.getElem?_set, List.getElem?_set, if_neg hne, if_neg hne]
      exact ⟨rfl, rfl⟩
    · simp only [simplify_linestring, h0, h1, if_false] at h
      obtain ⟨⟨out1, oLon1, oLat1⟩, hloop, h⟩ := bind_eq_ok h
      obtain ⟨_, hgrow, hframe⟩ :=
        copyLoop_frame lon lat n n.toNat 0 0 outLon outLat _ (Int.le_refl _) hloop
      have hpos : 1 ≤ out1 := by
        have := hgrow (by omega)
        simpa using this
      simp only at h hframe
      obtain ⟨b, _, h⟩ := bind_eq_ok h
      cases b with
      | false =>
        simp only [Bool.false_eq_true, if_false] at h
        cases h
        refine ⟨fun j hj => ?_, fun hk => by simp only at hk; omega⟩
        simp only [Option.getD_some]
        exact hframe j (Or.inr hj)
      | true =>
        simp only [if_true] at h
        obtain ⟨m, _, h⟩ := bind_eq_ok h
        obtain ⟨x, _, h⟩ := bind_eq_ok h
        obtain ⟨oLon2, hs1, h⟩ := bind_eq_ok h
        obtain ⟨y, _, h⟩ := bind_eq_ok h
        obtain ⟨oLat2, hs2, h⟩ := bind_eq_ok h
        obtain ⟨out2, ho2, h⟩ := bind_eq_ok h
        obtain ⟨rfl, _, _⟩ := checked_eq_ok ho2
        obtain ⟨rfl, _⟩ := store_eq_ok hs1
        obtain ⟨rfl, _⟩ := store_eq_ok hs2
        cases h
        refine ⟨fun j hj => ?_, fun hk => by simp only at hk; omega⟩
        simp only at hj
        have hne : out1.toNat ≠ j := by omega
        obtain ⟨f1, f2⟩ := hframe j (Or.inr (by omega))
        simp only [Option.getD_some]
        rw [List.getElem?_set, List.getElem?_set, if_neg hne, if_neg hne]
        exact ⟨f1, f2⟩

/-- C18 at the sample input: the call returns 3 and the entries 3 and 4 of the
output buffers keep their value 5. -/
theorem C18_frame_kept_witness :
    simplify_linestring (some sampleLon) (some sampleLat) 5 Double.one
        (some sampleOut) (some sampleOut)
      = .ok ⟨3, some [Double.zero, Double.two, Double.four, Double.five, Double.five],
          some [Double.zero, Double.zero, Double.zero, Double.five, Double.five]⟩ ∧
    FrameKept (some sampleOut) (some sampleOut)
      ⟨3, some [Double.zero, Double.two, Double.four, Double.five, Double.five],
        some [Double.zero, Double.zero, Double.zero, Double.five, Double.five]⟩ :=
  ⟨rfl, C18_frame_kept (some sampleLon) (some sampleLat) (some sampleOut) (some sampleOut) 5
    Double.one _ rfl⟩

end LineSimplify
